import Mathlib

/-!
# Verification of the smerkle Merkle-tree hasher

A shallow embedding of the core of the `smerkle` repository (a
content-addressable Merkle-tree hasher for directory trees, written in Go)
together with proofs about its binary codec, object store, ignore matcher,
tree walker and tree differ.

Conventions of the embedding:
* Go byte strings (`[]byte` and Go `string`, which is a byte string) are
  `List Byte` with `Byte := Fin 256`.
* Go machine integers are `Nat` / `Int` with explicit reductions modulo
  `2 ^ w` at the points where the Go code converts or serializes.
* Go functions returning `(T, error)` become `Except String T`; the error
  strings mirror the distinct `fmt.Errorf` messages of the source (dynamic
  payloads such as `%q`-quoted byte strings are elided).
* `time.Time` is modelled as a wall-clock instant `(sec, nsec)` in Unix
  seconds and nanoseconds, which is exactly the data the repository
  serializes and compares.
-/

set_option maxRecDepth 4000

/-- A single octet. -/
abbrev Byte := Fin 256

/-- A Go byte string (Go `string` and `[]byte` are both byte sequences). -/
abbrev GoStr := List Byte

/-- Embed an ASCII Lean string literal as a Go byte string. -/
def gs (s : String) : GoStr :=
  s.data.map (fun c => ⟨c.toNat % 256, Nat.mod_lt _ (by norm_num)⟩)

/-- Big-endian encoding of `n` into `w` bytes (the value is reduced
modulo `2 ^ (8 * w)`, matching Go integer truncation). -/
def beBytes : Nat → Nat → List Byte
  | 0, _ => []
  | w + 1, n => beBytes w (n / 256) ++ [⟨n % 256, Nat.mod_lt _ (by norm_num)⟩]

/-- Big-endian value of a byte string. -/
def beVal (l : List Byte) : Nat :=
  l.foldl (fun acc b => acc * 256 + b.val) 0

/-- Twos-complement big-endian encoding of a signed 64-bit value
(Go `binary.Write` of an `int64`). -/
def encInt64 (i : Int) : List Byte :=
  beBytes 8 (i % 18446744073709551616).toNat

/-- Decode 8 bytes as a big-endian twos-complement signed 64-bit value. -/
def decInt64 (l : List Byte) : Int :=
  let n := beVal l
  if n < 9223372036854775808 then (n : Int) else (n : Int) - 18446744073709551616

/-- Decode 4 bytes as a big-endian twos-complement signed 32-bit value. -/
def decInt32 (l : List Byte) : Int :=
  let n := beVal l
  if n < 2147483648 then (n : Int) else (n : Int) - 4294967296

/-- The Go zero `time.Time` (January 1, year 1, UTC) expressed as Unix
seconds and nanoseconds; this is the `ModTime` a decoded tree entry
carries, since the tree codec does not serialize modification times. -/
structure Timestamp where
  sec : Int
  nsec : Nat
  deriving DecidableEq

def goTimeZero : Timestamp := ⟨-62135596800, 0⟩

def Timestamp.WF (ts : Timestamp) : Prop :=
  -9223372036854775808 ≤ ts.sec ∧ ts.sec < 9223372036854775808 ∧
    ts.nsec < 1000000000

instance : DecidablePred Timestamp.WF := fun _ => by
  unfold Timestamp.WF; infer_instance

/-- Go `time.Unix(sec, nsec)`: normalizes `nsec` into `[0, 1e9)` carrying
into `sec` (Go integer division truncates toward zero, hence the
negative-remainder fixup). -/
def timeUnix (sec nsec : Int) : Timestamp :=
  let n := Int.tdiv nsec 1000000000
  let sec' := sec + n
  let nsec' := nsec - n * 1000000000
  if nsec' < 0 then ⟨sec' - 1, (nsec' + 1000000000).toNat⟩ else ⟨sec', nsec'.toNat⟩

namespace Object
/-- A 32-byte content identifier (`object.Hash`); well-formed values have
length 32. -/
abbrev Hash := List Byte

def ZeroHash : Hash := List.replicate 32 0

/-- Go `object.Mode` is a `uint8`; only four values are named by the source. -/
abbrev Mode := Byte

def ModeRegular : Mode := 0

def ModeExecutable : Mode := 1

def ModeDirectory : Mode := 2

def ModeSymlink : Mode := 3

/-- Source `Mode.IsFile`: regular or executable. -/
def Mode.IsFile (m : Mode) : Bool :=
  m = ModeRegular || m = ModeExecutable

/-- One row of a tree (`object.Entry`). -/
structure Entry where
  Name : GoStr
  Mode : Mode
  Size : Int
  ModTime : Timestamp
  Hash : Hash
  deriving DecidableEq

/-- Source `object.Blob`: raw content bytes. -/
structure Blob where
  Content : List Byte
  deriving DecidableEq

/-- Source `object.Tree`: an ordered sequence of entries. -/
structure Tree where
  Entries : List Entry
  deriving DecidableEq

/-- Source `object.IndexEntry`: one path-cache record. -/
structure IndexEntry where
  Path : GoStr
  Size : Int
  ModTime : Timestamp
  Hash : Hash
  deriving DecidableEq

/-- Source `object.Index`. -/
structure Index where
  Entries : List IndexEntry
  deriving DecidableEq

/-- Source `IndexEntry.Matches`: exact equality of path, size and modification
time (`time.Time.Equal` compares the instant at nanosecond precision,
which on normalized wall-clock values is equality of `(sec, nsec)`). -/
def IndexEntry.Matches (e : IndexEntry) (path : GoStr) (size : Int)
    (modTime : Timestamp) : Bool :=
  e.Path = path && e.Size = size && e.ModTime = modTime

/-! ## Binary codec (`internal/object/serde.go`) -/
def MagicBlob : GoStr := gs "MRKB"

def MagicTree : GoStr := gs "MRKT"

def MagicIndex : GoStr := gs "MRKI"

def CurrentVersion : Nat := 1

/-- Source `WriteHeader`: 4 magic bytes then the version as big-endian `uint16`. -/
def writeHeader (magic : GoStr) : List Byte :=
  magic ++ beBytes 2 CurrentVersion

/-- Read `n` bytes off the front of the input, or `none` on short input
(`io.ReadFull` / `binary.Read` underflow). -/
def readN (n : Nat) (d : List Byte) : Option (List Byte × List Byte) :=
  if n ≤ d.length then some (d.take n, d.drop n) else none

/-- Source `ReadHeader`: one 6-byte read, then the magic and version checks. -/
def readHeader (expectedMagic : GoStr) (d : List Byte) :
    Except String (Nat × List Byte) :=
  match readN 6 d with
  | none => .error "read header"
  | some (hdr, rest) =>
    if hdr.take 4 = expectedMagic then
      let version := beVal (hdr.drop 4)
      if version > CurrentVersion then .error "unsupported version"
      else .ok (version, rest)
    else .error "invalid magic"

/-- Source `EncodeBlob`. In Go this returns `([]byte, error)` but never fails
(buffer writes cannot fail); the content length is written as a
big-endian `uint64`. -/
def EncodeBlob (b : Blob) : List Byte :=
  writeHeader MagicBlob ++ beBytes 8 b.Content.length ++ b.Content

/-- Source `decodeBlobV1`; bytes remaining after the content are ignored. -/
def decodeBlobV1 (r : List Byte) : Except String Blob :=
  match readN 8 r with
  | none => .error "read content length"
  | some (lenBytes, r1) =>
    match readN (beVal lenBytes) r1 with
    | none => .error "read content"
    | some (content, _) => .ok ⟨content⟩

/-- Source `DecodeBlob`. -/
def DecodeBlob (data : List Byte) : Except String Blob :=
  match readHeader MagicBlob data with
  | .error e => .error e
  | .ok (version, r) =>
    if version = 1 then decodeBlobV1 r
    else .error "unknown blob version"

/-- Source `encodeEntry`: mode (1 byte), size (`int64`), name length (`uint16`),
name bytes, hash (32 bytes). Fails with the `TooLarge` message when the
name exceeds the 16-bit length prefix. -/
def encodeEntry (e : Entry) : Except String (List Byte) :=
  if e.Name.length > 65535 then .error "entry name too long"
  else .ok ([e.Mode] ++ encInt64 e.Size ++ beBytes 2 e.Name.length ++ e.Name ++ e.Hash)

/-- Encode a list of entries in order, propagating the first failure. -/
def encodeEntries : List Entry → Except String (List Byte)
  | [] => .ok []
  | e :: rest =>
    match encodeEntry e with
    | .error err => .error err
    | .ok bs =>
      match encodeEntries rest with
      | .error err => .error err
      | .ok bs' => .ok (bs ++ bs')

/-- Source `EncodeTree`: header, entry count (`uint32`), then the entries. -/
def EncodeTree (t : Tree) : Except String (List Byte) :=
  if t.Entries.length > 4294967295 then .error "too many tree entries"
  else
    match encodeEntries t.Entries with
    | .error err => .error err
    | .ok body => .ok (writeHeader MagicTree ++ beBytes 4 t.Entries.length ++ body)

/-- Source `decodeEntryV1`: the mode byte is read without validation, and the
`ModTime` field is left at the Go zero `time.Time`. -/
def decodeEntryV1 (r : List Byte) : Except String (Entry × List Byte) :=
  match readN 1 r with
  | none => .error "read mode"
  | some (modeBytes, r1) =>
    match readN 8 r1 with
    | none => .error "read size"
    | some (sizeBytes, r2) =>
      match readN 2 r2 with
      | none => .error "read name length"
      | some (nameLenBytes, r3) =>
        match readN (beVal nameLenBytes) r3 with
        | none => .error "read name"
        | some (name, r4) =>
          match readN 32 r4 with
          | none => .error "read hash"
          | some (hash, r5) =>
            .ok (⟨name, modeBytes.headI, decInt64 sizeBytes, goTimeZero, hash⟩, r5)

/-- The entry-decoding loop of `decodeTreeV1`; `i` is the entry index used
in the wrapping error message. -/
def decodeEntriesV1 : Nat → Nat → List Byte → Except String (List Entry × List Byte)
  | 0, _, r => .ok ([], r)
  | n + 1, i, r =>
    match decodeEntryV1 r with
    | .error e => .error ("decode entry " ++ toString i ++ ": " ++ e)
    | .ok (entry, r1) =>
      match decodeEntriesV1 n (i + 1) r1 with
      | .error e => .error e
      | .ok (entries, r2) => .ok (entry :: entries, r2)

/-- Source `decodeTreeV1`; bytes remaining after the last entry are ignored. -/
def decodeTreeV1 (r : List Byte) : Except String Tree :=
  match readN 4 r with
  | none => .error "read entry count"
  | some (countBytes, r1) =>
    match decodeEntriesV1 (beVal countBytes) 0 r1 with
    | .error e => .error e
    | .ok (entries, _) => .ok ⟨entries⟩

/-- Source `DecodeTree`. -/
def DecodeTree (data : List Byte) : Except String Tree :=
  match readHeader MagicTree data with
  | .error e => .error e
  | .ok (version, r) =>
    if version = 1 then decodeTreeV1 r
    else .error "unknown tree version"

/-- Source `encodeIndexEntry`: path length (`uint16`), path, size (`int64`),
modtime seconds (`int64`), modtime nanoseconds (`int32`), hash. -/
def encodeIndexEntry (e : IndexEntry) : Except String (List Byte) :=
  if e.Path.length > 65535 then .error "index entry path too long"
  else .ok (beBytes 2 e.Path.length ++ e.Path ++ encInt64 e.Size ++
    encInt64 e.ModTime.sec ++ beBytes 4 e.ModTime.nsec ++ e.Hash)

def encodeIndexEntries : List IndexEntry → Except String (List Byte)
  | [] => .ok []
  | e :: rest =>
    match encodeIndexEntry e with
    | .error err => .error err
    | .ok bs =>
      match encodeIndexEntries rest with
      | .error err => .error err
      | .ok bs' => .ok (bs ++ bs')

/-- Source `EncodeIndex`. -/
def EncodeIndex (idx : Index) : Except String (List Byte) :=
  if idx.Entries.length > 4294967295 then .error "too many index entries"
  else
    match encodeIndexEntries idx.Entries with
    | .error err => .error err
    | .ok body => .ok (writeHeader MagicIndex ++ beBytes 4 idx.Entries.length ++ body)

/-- Source `decodeIndexEntryV1`; the modification time is rebuilt with
`time.Unix(secs, nsec)`. -/
def decodeIndexEntryV1 (r : List Byte) : Except String (IndexEntry × List Byte) :=
  match readN 2 r with
  | none => .error "read path length"
  | some (pathLenBytes, r1) =>
    match readN (beVal pathLenBytes) r1 with
    | none => .error "read path"
    | some (path, r2) =>
      match readN 8 r2 with
      | none => .error "read size"
      | some (sizeBytes, r3) =>
        match readN 8 r3 with
        | none => .error "read modtime seconds"
        | some (secBytes, r4) =>
          match readN 4 r4 with
          | none => .error "read modtime nanoseconds"
          | some (nsecBytes, r5) =>
            match readN 32 r5 with
            | none => .error "read hash"
            | some (hash, r6) =>
              .ok (⟨path, decInt64 sizeBytes,
                timeUnix (decInt64 secBytes) (decInt32 nsecBytes), hash⟩, r6)

def decodeIndexEntriesV1 : Nat → Nat → List Byte →
    Except String (List IndexEntry × List Byte)
  | 0, _, r => .ok ([], r)
  | n + 1, i, r =>
    match decodeIndexEntryV1 r with
    | .error e => .error ("decode entry " ++ toString i ++ ": " ++ e)
    | .ok (entry, r1) =>
      match decodeIndexEntriesV1 n (i + 1) r1 with
      | .error e => .error e
      | .ok (entries, r2) => .ok (entry :: entries, r2)

/-- Source `decodeIndexV1`; bytes remaining after the last entry are ignored. -/
def decodeIndexV1 (r : List Byte) : Except String Index :=
  match readN 4 r with
  | none => .error "read entry count"
  | some (countBytes, r1) =>
    match decodeIndexEntriesV1 (beVal countBytes) 0 r1 with
    | .error e => .error e
    | .ok (entries, _) => .ok ⟨entries⟩

/-- Source `DecodeIndex`. -/
def DecodeIndex (data : List Byte) : Except String Index :=
  match readHeader MagicIndex data with
  | .error e => .error e
  | .ok (version, r) =>
    if version = 1 then decodeIndexV1 r
    else .error "unknown index version"

/-! ## Well-formedness corresponding to the Go types
In Go these bounds are enforced by the machine types themselves
(`[]byte` lengths fit in `int64`, `Mode` is a `uint8`, hashes are
`[32]byte`); in the embedding over unbounded `List`/`Int` they are
explicit predicates. -/
def Blob.WF (b : Blob) : Prop := b.Content.length < 18446744073709551616

def Entry.WF (e : Entry) : Prop :=
  e.Name.length ≤ 65535 ∧ e.Hash.length = 32 ∧
    -9223372036854775808 ≤ e.Size ∧ e.Size < 9223372036854775808

def Tree.WF (t : Tree) : Prop :=
  t.Entries.length ≤ 4294967295 ∧ ∀ e ∈ t.Entries, e.WF

def IndexEntry.WF (e : IndexEntry) : Prop :=
  e.Path.length ≤ 65535 ∧ e.Hash.length = 32 ∧
    -9223372036854775808 ≤ e.Size ∧ e.Size < 9223372036854775808 ∧
    e.ModTime.WF

def Index.WF (idx : Index) : Prop :=
  idx.Entries.length ≤ 4294967295 ∧ ∀ e ∈ idx.Entries, e.WF

instance : DecidablePred Blob.WF := fun _ => by unfold Blob.WF; infer_instance

instance : DecidablePred Entry.WF := fun _ => by unfold Entry.WF; infer_instance

instance : DecidablePred Tree.WF := fun _ => by unfold Tree.WF; infer_instance

instance : DecidablePred IndexEntry.WF := fun _ => by unfold IndexEntry.WF; infer_instance

instance : DecidablePred Index.WF := fun _ => by unfold Index.WF; infer_instance

/-- The byte string `encodeEntry` produces for a well-formed entry. -/
def entryBytes (e : Entry) : List Byte :=
  [e.Mode] ++ encInt64 e.Size ++ beBytes 2 e.Name.length ++ e.Name ++ e.Hash

/-- The decoded form of an entry: everything preserved except `ModTime`,
which the tree codec does not serialize. -/
def Entry.zeroMT (e : Entry) : Entry := { e with ModTime := goTimeZero }

/-- Concatenated encodings of a list of entries. -/
def entriesBytes (es : List Entry) : List Byte :=
  (es.map entryBytes).flatten

/-- The byte string `encodeIndexEntry` produces for a well-formed entry. -/
def indexEntryBytes (e : IndexEntry) : List Byte :=
  beBytes 2 e.Path.length ++ e.Path ++ encInt64 e.Size ++
    encInt64 e.ModTime.sec ++ beBytes 4 e.ModTime.nsec ++ e.Hash

/-- Concatenated encodings of a list of index entries. -/
def indexEntriesBytes (es : List IndexEntry) : List Byte :=
  (es.map indexEntryBytes).flatten

end Object
/-- Go `filepath.Join` on clean slash-free components: join with a slash. -/
def fpJoin (a b : GoStr) : GoStr := a ++ gs "/" ++ b

namespace Store
/-! ## Object store (`internal/store/store.go`)
The in-memory index is a Go map `path -> IndexEntry`; it is modelled as a
lookup function for `LookupCache` and as an association list (whose order
stands for the Go map iteration order) for `Flush`.  Filesystem effects are
modelled as explicit data: `Flush` returns the list of filesystem
operations it performs, and `HasObject` consults a stat oracle. -/
/-- Source `Store.LookupCache`: look the path up in the index map and accept the
entry only if `IndexEntry.Matches` holds. -/
def LookupCache (index : GoStr → Option Object.IndexEntry) (path : GoStr)
    (size : Int) (modTime : Timestamp) : Object.Hash × Bool :=
  match index path with
  | none => (Object.ZeroHash, false)
  | some e =>
    if e.Matches path size modTime then (e.Hash, true)
    else (Object.ZeroHash, false)

/-- The mutable store state relevant to `Flush`: the in-memory index and
the dirty flag. -/
structure State where
  index : List (GoStr × Object.IndexEntry)
  dirty : Bool
  deriving DecidableEq

/-- A filesystem operation performed by the store. `Flush` only ever
performs a direct `os.WriteFile`; `PutObject` (not needed here) is the
function that uses a temp file plus rename. -/
inductive FsOp where
  | writeFile (path : GoStr) (data : List Byte) (perm : Nat)
  | createTemp (dir : GoStr)
  | rename (src dst : GoStr)
  deriving DecidableEq

/-- The values of the index map (`for _, e := range s.index`). -/
def State.values (st : State) : List Object.IndexEntry := st.index.map Prod.snd

/-- Source `Store.Flush`: no-op when not dirty; otherwise serialize the full
index and write it to `root/index` with mode 0600 via a single
`os.WriteFile`, then clear the dirty flag.  The returned list is the
trace of filesystem operations performed. -/
def Flush (root : GoStr) (st : State) : Except String (State × List FsOp) :=
  if !st.dirty then .ok (st, [])
  else
    match Object.EncodeIndex ⟨st.values⟩ with
    | .error e => .error ("encode index: " ++ e)
    | .ok data =>
      .ok ({ st with dirty := false }, [.writeFile (fpJoin root (gs "index")) data 0o600])

/-- One lowercase hex digit (`encoding/hex`). -/
def hexDigit (n : Nat) : Byte :=
  ⟨(if n < 10 then 48 + n else 87 + n) % 256, by omega⟩

/-- Source `Hash.String()`: lowercase hex, two digits per byte. -/
def hexOfHash (h : Object.Hash) : GoStr :=
  (h.map (fun b => [hexDigit (b.val / 16), hexDigit (b.val % 16)])).flatten

/-- Source `Store.objectPath`: git-style sharding, first two hex characters as
the directory (`root/objects/hex[0:2]/hex[2:]`). -/
def objectPath (root : GoStr) (h : Object.Hash) : GoStr :=
  let hex := hexOfHash h
  fpJoin (fpJoin (fpJoin root (gs "objects")) (hex.take 2)) (hex.drop 2)

/-- What `os.Stat` reports for a path that exists (after following
symlinks). -/
inductive StatKind where
  | regular
  | directory
  | other
  deriving DecidableEq

/-- Source `Store.HasObject`: true iff `os.Stat` on the sharded object path
succeeds, i.e. iff anything at all exists there. -/
def HasObject (fs : GoStr → Option StatKind) (root : GoStr) (h : Object.Hash) : Bool :=
  (fs (objectPath root h)).isSome

end Store
namespace Ignore
/-! ## Ignore matcher (`internal/ignore/ignore.go`)
`Pattern` carries the compiled attributes the matching loop reads
(`negated`, `original`, `lineNumber`); the glob evaluation of
`Pattern.Match` (pattern.go) is abstracted as the `matches` field, since
the claims below quantify over arbitrary pattern behaviour. -/
structure Pattern where
  original : String
  negated : Bool
  lineNumber : Nat
  matchFn : GoStr → Bool → Bool

/-- Source `ignore.Result`. -/
structure Result where
  Ignored : Bool
  Pattern : String
  Negated : Bool
  LineNumber : Nat
  deriving DecidableEq

/-- Source `Ignorer.MatchResult`: process patterns in source order, the last
match wins; the zero `Result` is returned when nothing matches. -/
def MatchResult (patterns : List Pattern) (path : GoStr) (isDir : Bool) : Result :=
  patterns.foldl
    (fun result p =>
      if p.matchFn path isDir then
        if p.negated then
          ⟨false, p.original, true, p.lineNumber⟩
        else
          ⟨true, p.original, false, p.lineNumber⟩
      else result)
    ⟨false, "", false, 0⟩

/-- Source `Ignorer.Match`. -/
def Match (patterns : List Pattern) (path : GoStr) (isDir : Bool) : Bool :=
  (MatchResult patterns path isDir).Ignored

/-- Specification-side reading of `MatchResult`: the result determined by
an optional final matching pattern. -/
def resultOfLast : Option Pattern → Result
  | none => ⟨false, "", false, 0⟩
  | some p =>
    if p.negated then ⟨false, p.original, true, p.lineNumber⟩
    else ⟨true, p.original, false, p.lineNumber⟩

end Ignore
/-- Go string comparison (`<` on `string`): lexicographic on bytes, a
proper prefix sorts first. -/
def strLt : GoStr → GoStr → Bool
  | _, [] => false
  | [], _ :: _ => true
  | a :: as, b :: bs =>
    if a.val < b.val then true
    else if b.val < a.val then false
    else strLt as bs

namespace Diff
/-! ## Tree differ (`internal/diff/diff.go`)
The store is modelled as the `GetTree` oracle the differ reads through.
The mutually recursive Go functions `diffTrees` and `addAllEntries` (and
their loops over entry lists) are embedded as one fuel-indexed dispatcher
`run` over a `Call` type whose four constructors are the four recursion
sites of the source; the fuel only rules out a hypothetical cyclic store
(hash addressing makes real stores acyclic) and every recursive call of
the source decrements it. -/
inductive ChangeType where
  | added
  | deleted
  | modified
  | typeChange
  deriving DecidableEq

structure Change where
  type : ChangeType
  Path : GoStr
  OldEntry : Option Object.Entry
  NewEntry : Option Object.Entry
  deriving DecidableEq

structure Options where
  Recursive : Bool
  deriving DecidableEq

/-- The differ reads trees back through `store.GetTree`. -/
abbrev TreeStore := Object.Hash → Except String Object.Tree

/-- Source `loadTree`: the zero hash is interpreted as an empty tree. -/
def loadTree (s : TreeStore) (h : Object.Hash) : Except String Object.Tree :=
  if h = Object.ZeroHash then .ok ⟨[]⟩ else s h

/-- Source `joinPath`: `path.Join` on clean components. -/
def joinPath (pre name : GoStr) : GoStr :=
  if pre = [] then name else pre ++ gs "/" ++ name

/-- The four recursion sites of the differ: `diffTrees` on two hashes,
its two-pointer loop over the entry lists, `addAllEntries` on a hash, and
its loop over the entries of a tree. -/
inductive Call where
  | trees (oldHash newHash : Object.Hash) (pre : GoStr)
  | lists (olds news : List Object.Entry) (pre : GoStr)
  | addAll (h : Object.Hash) (pre : GoStr) (ct : ChangeType)
  | addList (entries : List Object.Entry) (pre : GoStr) (ct : ChangeType)

/-- One `Change` of `addAllEntries`: the entry goes on the side selected
by the change type. -/
def addChange (ct : ChangeType) (fullPath : GoStr) (entry : Object.Entry) : Change :=
  ⟨ct, fullPath, if ct = .added then none else some entry,
    if ct = .added then some entry else none⟩

def run (s : TreeStore) (opts : Options) (fuel : Nat) (c : Call) :
    Except String (List Change) :=
  match fuel, c with
  | 0, _ => .error "diff: out of fuel"
  | fuel + 1, .trees oldHash newHash pre =>
    if oldHash = newHash then .ok []
    else
      match loadTree s oldHash with
      | .error e => .error e
      | .ok oldTree =>
        match loadTree s newHash with
        | .error e => .error e
        | .ok newTree => run s opts fuel (.lists oldTree.Entries newTree.Entries pre)
  | fuel + 1, .addAll h pre ct =>
    match loadTree s h with
    | .error e => .error e
    | .ok tree => run s opts fuel (.addList tree.Entries pre ct)
  | fuel + 1, .addList es pre ct =>
    match es with
    | [] => .ok []
    | entry :: rest =>
      let fullPath := joinPath pre entry.Name
      let c0 := addChange ct fullPath entry
      if entry.Mode = Object.ModeDirectory then
        match run s opts fuel (.addAll entry.Hash fullPath ct) with
        | .error e => .error e
        | .ok sub =>
          match run s opts fuel (.addList rest pre ct) with
          | .error e => .error e
          | .ok tl => .ok (c0 :: sub ++ tl)
      else
        match run s opts fuel (.addList rest pre ct) with
        | .error e => .error e
        | .ok tl => .ok (c0 :: tl)
  | fuel + 1, .lists olds news pre =>
    match olds, news with
    | [], [] => .ok []
    | [], newEntry :: newRest =>
      -- old exhausted: Added (+ recursive expansion of directories)
      let fullPath := joinPath pre newEntry.Name
      let c0 : Change := ⟨.added, fullPath, none, some newEntry⟩
      if opts.Recursive && newEntry.Mode = Object.ModeDirectory then
        match run s opts fuel (.addAll newEntry.Hash fullPath .added) with
        | .error e => .error e
        | .ok sub =>
          match run s opts fuel (.lists [] newRest pre) with
          | .error e => .error e
          | .ok tl => .ok (c0 :: sub ++ tl)
      else
        match run s opts fuel (.lists [] newRest pre) with
        | .error e => .error e
        | .ok tl => .ok (c0 :: tl)
    | oldEntry :: oldRest, [] =>
      -- new exhausted: Deleted (+ recursive expansion)
      let fullPath := joinPath pre oldEntry.Name
      let c0 : Change := ⟨.deleted, fullPath, some oldEntry, none⟩
      if opts.Recursive && oldEntry.Mode = Object.ModeDirectory then
        match run s opts fuel (.addAll oldEntry.Hash fullPath .deleted) with
        | .error e => .error e
        | .ok sub =>
          match run s opts fuel (.lists oldRest [] pre) with
          | .error e => .error e
          | .ok tl => .ok (c0 :: sub ++ tl)
      else
        match run s opts fuel (.lists oldRest [] pre) with
        | .error e => .error e
        | .ok tl => .ok (c0 :: tl)
    | oldEntry :: oldRest, newEntry :: newRest =>
      if strLt oldEntry.Name newEntry.Name then
        let fullPath := joinPath pre oldEntry.Name
        let c0 : Change := ⟨.deleted, fullPath, some oldEntry, none⟩
        if opts.Recursive && oldEntry.Mode = Object.ModeDirectory then
          match run s opts fuel (.addAll oldEntry.Hash fullPath .deleted) with
          | .error e => .error e
          | .ok sub =>
            match run s opts fuel (.lists oldRest (newEntry :: newRest) pre) with
            | .error e => .error e
            | .ok tl => .ok (c0 :: sub ++ tl)
        else
          match run s opts fuel (.lists oldRest (newEntry :: newRest) pre) with
          | .error e => .error e
          | .ok tl => .ok (c0 :: tl)
      else if strLt newEntry.Name oldEntry.Name then
        let fullPath := joinPath pre newEntry.Name
        let c0 : Change := ⟨.added, fullPath, none, some newEntry⟩
        if opts.Recursive && newEntry.Mode = Object.ModeDirectory then
          match run s opts fuel (.addAll newEntry.Hash fullPath .added) with
          | .error e => .error e
          | .ok sub =>
            match run s opts fuel (.lists (oldEntry :: oldRest) newRest pre) with
            | .error e => .error e
            | .ok tl => .ok (c0 :: sub ++ tl)
        else
          match run s opts fuel (.lists (oldEntry :: oldRest) newRest pre) with
          | .error e => .error e
          | .ok tl => .ok (c0 :: tl)
      else
        -- names equal
        let fullPath := joinPath pre oldEntry.Name
        let oldIsDir : Bool := oldEntry.Mode = Object.ModeDirectory
        let newIsDir : Bool := newEntry.Mode = Object.ModeDirectory
        if oldIsDir != newIsDir then
          let c0 : Change := ⟨.typeChange, fullPath, some oldEntry, some newEntry⟩
          match (if opts.Recursive && oldIsDir then
              run s opts fuel (.addAll oldEntry.Hash fullPath .deleted)
            else .ok []) with
          | .error e => .error e
          | .ok subOld =>
            match (if opts.Recursive && newIsDir then
                run s opts fuel (.addAll newEntry.Hash fullPath .added)
              else .ok []) with
            | .error e => .error e
            | .ok subNew =>
              match run s opts fuel (.lists oldRest newRest pre) with
              | .error e => .error e
              | .ok tl => .ok (c0 :: subOld ++ subNew ++ tl)
        else if oldEntry.Hash ≠ newEntry.Hash then
          if oldIsDir && opts.Recursive then
            match run s opts fuel (.trees oldEntry.Hash newEntry.Hash fullPath) with
            | .error e => .error e
            | .ok sub =>
              match run s opts fuel (.lists oldRest newRest pre) with
              | .error e => .error e
              | .ok tl => .ok (sub ++ tl)
          else
            let c0 : Change := ⟨.modified, fullPath, some oldEntry, some newEntry⟩
            match run s opts fuel (.lists oldRest newRest pre) with
            | .error e => .error e
            | .ok tl => .ok (c0 :: tl)
        else
          run s opts fuel (.lists oldRest newRest pre)

/-- Source `diff.Diff`: the list of changes of the whole diff (`Result.Changes`). -/
def Diff (s : TreeStore) (fuel : Nat) (oldHash newHash : Object.Hash)
    (opts : Options) : Except String (List Change) :=
  run s opts fuel (.trees oldHash newHash [])

/-- Entries that the ordered merge of `diffTrees` silently skips: same
name, same hash, and agreement on directory-ness (the mode byte itself is
never compared). -/
def SameShape (a b : Object.Entry) : Prop :=
  a.Name = b.Name ∧ a.Hash = b.Hash ∧
    ((a.Mode = Object.ModeDirectory) ↔ (b.Mode = Object.ModeDirectory))

end Diff
namespace Walker
/-! ## Tree walker (`internal/walker/walker.go`)
The filesystem is an inductive tree whose leaves carry the outcomes the
walker observes (`lstat` failure, `ReadDir` failure, the result of
reading a file or link target), the store is an oracle for
`PutBlob`/`PutTree`/`LookupCache`, and errors form an inductive type with
`fmt.Errorf`-style wrapping so that `errors.Is(err, context.Canceled)`
can be modelled.  The goroutine fan-out of `walkDir` is deterministic up
to the order of collected errors, which the model fixes to child order;
fuel bounds the directory depth and each recursion of the source
decrements it.  `UpdateCache` is modelled as a no-op: within a single
walk every relative path is visited at most once, so a cache update is
never observed by the same walk. -/
/-- Walker-side errors: cancellation, deadline, an I/O error, or a
wrapped error (`fmt.Errorf("...: %w", err)`). -/
inductive WErr where
  | canceled
  | deadlineExceeded
  | ioErr (msg : String)
  | wrap (msg : String) (e : WErr)
  deriving DecidableEq

/-- Go `errors.Is(err, context.Canceled) || errors.Is(err, context.DeadlineExceeded)`. -/
def WErr.isCancel : WErr → Bool
  | .canceled => true
  | .deadlineExceeded => true
  | .wrap _ e => e.isCancel
  | .ioErr _ => false

/-- The store operations the walker uses. -/
structure StoreModel where
  putBlob : List Byte → Except WErr Object.Hash
  putTree : Object.Tree → Except WErr Object.Hash
  lookupCache : GoStr → Int → Timestamp → Option Object.Hash

/-- A filesystem node as the walker observes it: a file or symlink
(`lstat` data plus the outcome of reading it), a readable directory, a
directory whose `ReadDir` fails, or an entry whose `lstat` fails. -/
inductive FSNode where
  | file (sym exec : Bool) (size : Int) (mt : Timestamp) (content : Except WErr GoStr)
  | dir (mt : Timestamp) (children : List (GoStr × FSNode))
  | dirFail (mt : Timestamp) (e : WErr)
  | statFail (e : WErr)

def smerkleignoreFile : GoStr := gs ".smerkleignore"

/-- An ignorer is consulted with the relative path and the is-directory
flag. -/
abbrev Ignorer := GoStr → Bool → Bool

def isIgnored (ign : Option Ignorer) (relPath : GoStr) (isDir : Bool) : Bool :=
  match ign with
  | none => false
  | some m => m relPath isDir

/-- Source `modeFromFileInfo` for non-directories (the directory case is carried
by the `FSNode.dir` constructor): symlink wins, then any executable bit,
else regular. -/
def modeFromFileInfo (sym exec : Bool) : Object.Mode :=
  if sym then Object.ModeSymlink
  else if exec then Object.ModeExecutable
  else Object.ModeRegular

/-- Source `walker.hashFile` (minus the semaphore / context checks, which have
no effect in a run that is never cancelled): consult the cache for
non-symlinks, otherwise read the content and `PutBlob` it.  The `name`
argument is `filepath.Base(relPath)`, supplied by the caller. -/
def hashFile (sm : StoreModel) (sym exec : Bool) (size : Int) (mt : Timestamp)
    (content : Except WErr GoStr) (relPath name : GoStr) : Except WErr Object.Entry :=
  let mode := modeFromFileInfo sym exec
  match (if mode = Object.ModeSymlink then none else sm.lookupCache relPath size mt) with
  | some h => .ok ⟨name, mode, size, mt, h⟩
  | none =>
    match content with
    | .error e => .error e
    | .ok c =>
      match sm.putBlob c with
      | .error e => .error (.wrap "put blob" e)
      | .ok h => .ok ⟨name, mode, size, mt, h⟩

/-- Source `walker.processFileEntry`: cancellation errors propagate, everything
else is added to the error collector and the entry is omitted. -/
def processFileEntry (sm : StoreModel) (sym exec : Bool) (size : Int) (mt : Timestamp)
    (content : Except WErr GoStr) (relPath name : GoStr) :
    Except WErr (Option Object.Entry × List (GoStr × WErr)) :=
  match hashFile sm sym exec size mt content relPath name with
  | .error e => if e.isCancel then .error e else .ok (none, [(relPath, e)])
  | .ok entry => .ok (some entry, [])

/-- Insertion into a by-name sorted list (`sort.Slice` comparator
`entries[i].Name < entries[j].Name`). -/
def insertByName (e : Object.Entry) : List Object.Entry → List Object.Entry
  | [] => [e]
  | x :: xs => if strLt e.Name x.Name then e :: x :: xs else x :: insertByName e xs

/-- Sort entries by name for determinism. -/
def sortByName (es : List Object.Entry) : List Object.Entry :=
  es.foldr insertByName []

mutual

/-- Source `walker.walkDir` on a directory whose listing is `children`: process
every child, sort the surviving entries by name, and `PutTree` the
resulting tree; a `PutTree` failure here is returned as an error. -/
def walkDir (sm : StoreModel) (ign : Option Ignorer) (fuel : Nat)
    (children : List (GoStr × FSNode)) (relDir : GoStr) :
    Except WErr (Object.Hash × List (GoStr × WErr)) :=
  match fuel with
  | 0 => .error (.ioErr "walker: out of fuel")
  | fuel + 1 =>
    match processChildren sm ign fuel children relDir with
    | .error e => .error e
    | .ok (entries, errs) =>
      match sm.putTree ⟨sortByName entries⟩ with
      | .error e => .error (.wrap "put tree" e)
      | .ok h => .ok (h, errs)
termination_by structural fuel

/-- The per-entry loop of `walkDir`: skip the `.smerkleignore` file,
process each remaining child, and concatenate the surviving entries and
collected errors; only cancellation-style errors propagate. -/
def processChildren (sm : StoreModel) (ign : Option Ignorer) (fuel : Nat)
    (children : List (GoStr × FSNode)) (relDir : GoStr) :
    Except WErr (List Object.Entry × List (GoStr × WErr)) :=
  match fuel with
  | 0 => .error (.ioErr "walker: out of fuel")
  | fuel + 1 =>
    match children with
    | [] => .ok ([], [])
    | (name, node) :: rest =>
      if name = smerkleignoreFile then processChildren sm ign fuel rest relDir
      else
        let relPath := if relDir = [] then name else fpJoin relDir name
        match processEntry sm ign fuel node relPath name with
        | .error e => .error e
        | .ok (oe, errs1) =>
          match processChildren sm ign fuel rest relDir with
          | .error e => .error e
          | .ok (es, errs2) => .ok (oe.toList ++ es, errs1 ++ errs2)
termination_by structural fuel

/-- Source `walker.processEntry` / `processDirEntry`: `lstat` failures are
collected; ignored entries are skipped; directories recurse, collecting
any non-cancellation failure of the subtree (including its `PutTree`
failure) and omitting the entry. -/
def processEntry (sm : StoreModel) (ign : Option Ignorer) (fuel : Nat)
    (node : FSNode) (relPath name : GoStr) :
    Except WErr (Option Object.Entry × List (GoStr × WErr)) :=
  match fuel with
  | 0 => .error (.ioErr "walker: out of fuel")
  | fuel + 1 =>
    match node with
    | .statFail e => .ok (none, [(relPath, e)])
    | .file sym exec size mt content =>
      if isIgnored ign relPath false then .ok (none, [])
      else processFileEntry sm sym exec size mt content relPath name
    | .dir mt children =>
      if isIgnored ign relPath true then .ok (none, [])
      else
        match walkDir sm ign fuel children relPath with
        | .error e => if e.isCancel then .error e else .ok (none, [(relPath, e)])
        | .ok (h, errs) => .ok (some ⟨name, Object.ModeDirectory, 0, mt, h⟩, errs)
    | .dirFail mt e =>
      if isIgnored ign relPath true then .ok (none, [])
      else
        let e1 := WErr.wrap "read dir" e
        if e1.isCancel then .error e1 else .ok (none, [(relPath, e1)])
termination_by structural fuel

end

/-- Source `walker.Walk` after its preflight: walk the root directory listing
with an empty relative path. -/
def Walk (sm : StoreModel) (ign : Option Ignorer) (fuel : Nat)
    (rootChildren : List (GoStr × FSNode)) :
    Except WErr (Object.Hash × List (GoStr × WErr)) :=
  walkDir sm ign fuel rootChildren []

end Walker
/-! # Claim theorems -/
/-- Round-trip composition `DecodeBlob ∘ EncodeBlob`. -/
def blobRoundTrip (b : Object.Blob) : Except String Object.Blob :=
  Object.DecodeBlob (Object.EncodeBlob b)

/-- Round-trip composition `DecodeTree ∘ EncodeTree`. -/
def treeRoundTrip (t : Object.Tree) : Except String Object.Tree :=
  (Object.EncodeTree t).bind Object.DecodeTree

/-- Round-trip composition `DecodeIndex ∘ EncodeIndex`. -/
def indexRoundTrip (idx : Object.Index) : Except String Object.Index :=
  (Object.EncodeIndex idx).bind Object.DecodeIndex

def c1Tree : Object.Tree :=
  ⟨[⟨gs "a", Object.ModeRegular, 0, ⟨0, 0⟩, Object.ZeroHash⟩]⟩

def c5Hash : Object.Hash := List.replicate 32 7

def c5Index : GoStr → Option Object.IndexEntry :=
  fun p => if p = gs "a" then some ⟨gs "a", 5, ⟨1, 2⟩, c5Hash⟩ else none

def c7State : Store.State :=
  ⟨[(gs "a", ⟨gs "a", 1, ⟨0, 0⟩, Object.ZeroHash⟩)], true⟩

/-- Operations the claim says `Flush` performs but the code does not. -/
def Store.FsOp.isTempOrRename : Store.FsOp → Bool
  | .rename _ _ => true
  | .createTemp _ => true
  | .writeFile _ _ _ => false

def c9FS : GoStr → Option Store.StatKind :=
  fun p => if p = Store.objectPath (gs "R") Object.ZeroHash then some .directory else none

def c3Hash : Object.Hash := List.replicate 32 1

def c3Entry : Object.Entry := ⟨gs "f", Object.ModeRegular, 0, ⟨0, 0⟩, List.replicate 32 2⟩

def c3Store : Diff.TreeStore :=
  fun h => if h = c3Hash then .ok ⟨[c3Entry]⟩ else .error "object not found"

def c6H1 : Object.Hash := List.replicate 32 1

def c6H2 : Object.Hash := List.replicate 32 2

def c6Blob : Object.Hash := List.replicate 32 3

def c6Store : Diff.TreeStore :=
  fun h =>
    if h = c6H1 then .ok ⟨[⟨gs "f", Object.ModeRegular, 4, ⟨0, 0⟩, c6Blob⟩]⟩
    else if h = c6H2 then .ok ⟨[⟨gs "f", Object.ModeExecutable, 4, ⟨9, 9⟩, c6Blob⟩]⟩
    else .error "object not found"

def c2Store : Walker.StoreModel :=
  ⟨fun _ => .error (.ioErr "disk full"), fun _ => .ok Object.ZeroHash, fun _ _ _ => none⟩

def c2FS : List (GoStr × Walker.FSNode) :=
  [(gs "a.txt", Walker.FSNode.file false false 0 ⟨0, 0⟩ (.ok []))]


/-! # Proof development: lemmas and claim theorems -/

theorem length_beBytes (w n : Nat) : (beBytes w n).length = w := by
  induction w generalizing n with
  | zero => rfl
  | succ w ih => simp [beBytes, ih]

theorem beVal_append (l : List Byte) (b : Byte) :
    beVal (l ++ [b]) = beVal l * 256 + b.val := by
  simp [beVal]

theorem beVal_beBytes (w n : Nat) : beVal (beBytes w n) = n % 256 ^ w := by
  induction w generalizing n with
  | zero => simp [beBytes, beVal, Nat.mod_one]
  | succ w ih =>
    rw [beBytes, beVal_append, ih]
    have h256 : (256 : Nat) ^ (w + 1) = 256 * 256 ^ w := by ring
    rw [h256, Nat.mod_mul]
    ring

theorem beVal_beBytes_of_lt {w n : Nat} (h : n < 256 ^ w) :
    beVal (beBytes w n) = n := by
  rw [beVal_beBytes, Nat.mod_eq_of_lt h]

theorem decInt64_encInt64 {i : Int}
    (h1 : -9223372036854775808 ≤ i) (h2 : i < 9223372036854775808) :
    decInt64 (encInt64 i) = i := by
  have hmod : (0:Int) ≤ i % 18446744073709551616 := by omega
  have hlt : i % 18446744073709551616 < 18446744073709551616 := by omega
  have hval : beVal (beBytes 8 (i % 18446744073709551616).toNat)
      = (i % 18446744073709551616).toNat := by
    apply beVal_beBytes_of_lt
    show (i % 18446744073709551616).toNat < 256 ^ 8
    omega
  rw [encInt64, decInt64]
  simp only [hval]
  omega

theorem timeUnix_of_norm {sec nsec : Int} (h0 : 0 ≤ nsec) (h1 : nsec < 1000000000) :
    timeUnix sec nsec = ⟨sec, nsec.toNat⟩ := by
  have hdiv : Int.tdiv nsec 1000000000 = 0 := by
    apply Int.tdiv_eq_zero_of_lt h0 h1
  simp [timeUnix, hdiv, h0, not_lt.mpr h0]

namespace Object
/-! ## Codec lemmas: reading off concatenations, and failure on truncation -/
theorem readN_exact {n : Nat} {c r : List Byte} (h : c.length = n) :
    readN n (c ++ r) = some (c, r) := by
  unfold readN
  rw [if_pos (by simp [← h]), List.take_left' h, List.drop_left' h]

theorem readN_short {n : Nat} {d : List Byte} (h : d.length < n) :
    readN n d = none := by
  unfold readN
  rw [if_neg (by omega)]

theorem take_app_left {a b : List Byte} {k : Nat} (h : k ≤ a.length) :
    (a ++ b).take k = a.take k := by
  rw [List.take_append_eq_append_take, Nat.sub_eq_zero_of_le h, List.take_zero,
    List.append_nil]

theorem take_app_right {a b : List Byte} {k : Nat} (h : a.length ≤ k) :
    (a ++ b).take k = a ++ b.take (k - a.length) := by
  rw [List.take_append_eq_append_take, List.take_of_length_le h]

theorem length_take_of_le {l : List Byte} {k : Nat} (h : k ≤ l.length) :
    (l.take k).length = k := by
  simp [List.length_take]; omega

theorem encodeEntry_ok {e : Entry} (h : e.Name.length ≤ 65535) :
    encodeEntry e = .ok (entryBytes e) := by
  unfold encodeEntry entryBytes
  rw [if_neg (by omega)]

theorem entryBytes_length {e : Entry} (hh : e.Hash.length = 32) :
    (entryBytes e).length = 43 + e.Name.length := by
  simp [entryBytes, length_beBytes, encInt64, hh]
  omega

theorem decodeEntryV1_append {e : Entry} (hw : e.WF) (rest : List Byte) :
    decodeEntryV1 (entryBytes e ++ rest) = .ok (e.zeroMT, rest) := by
  obtain ⟨hn, hh, hs1, hs2⟩ := hw
  unfold decodeEntryV1 entryBytes
  simp only [List.append_assoc]
  simp only [readN_exact (n := 1) (c := [e.Mode]) rfl,
    readN_exact (n := 8) (c := encInt64 e.Size) (by simp [encInt64, length_beBytes]),
    readN_exact (n := 2) (c := beBytes 2 e.Name.length) (length_beBytes 2 _),
    beVal_beBytes_of_lt (w := 2) (show e.Name.length < 256 ^ 2 by norm_num; omega),
    readN_exact (c := e.Name) rfl,
    readN_exact (n := 32) (c := e.Hash) hh,
    decInt64_encInt64 hs1 hs2]
  rfl

theorem decodeEntryV1_trunc {e : Entry} (hw : e.WF) {k : Nat}
    (hk : k < (entryBytes e).length) :
    ∃ msg, decodeEntryV1 ((entryBytes e).take k) = .error msg := by
  obtain ⟨hn, hh, hs1, hs2⟩ := hw
  have hlen := entryBytes_length hh
  unfold entryBytes at hlen hk ⊢
  unfold decodeEntryV1
  simp only [List.append_assoc] at hk ⊢
  by_cases h1 : k < 1
  · refine ⟨"read mode", ?_⟩
    rw [readN_short (by rw [length_take_of_le (by simp; omega)]; omega)]
  · rw [take_app_right (a := [e.Mode]) (by simp; omega)]
    simp only [readN_exact (n := 1) (c := [e.Mode]) rfl, List.length_singleton]
    by_cases h2 : k - 1 < 8
    · refine ⟨"read size", ?_⟩
      rw [take_app_left (by simp [encInt64, length_beBytes]; omega)]
      rw [readN_short (by rw [length_take_of_le (by simp [encInt64, length_beBytes]; omega)]; omega)]
    · rw [take_app_right (a := encInt64 e.Size) (by simp [encInt64, length_beBytes]; omega)]
      simp only [readN_exact (n := 8) (c := encInt64 e.Size) (by simp [encInt64, length_beBytes])]
      simp only [encInt64, length_beBytes]
      by_cases h3 : k - 1 - 8 < 2
      · refine ⟨"read name length", ?_⟩
        rw [take_app_left (by rw [length_beBytes]; omega)]
        rw [readN_short (by rw [length_take_of_le (by rw [length_beBytes]; omega)]; omega)]
      · rw [take_app_right (a := beBytes 2 e.Name.length) (by rw [length_beBytes]; omega)]
        simp only [readN_exact (n := 2) (c := beBytes 2 e.Name.length) (length_beBytes 2 _),
          beVal_beBytes_of_lt (w := 2) (show e.Name.length < 256 ^ 2 by norm_num; omega)]
        simp only [length_beBytes]
        by_cases h4 : k - 1 - 8 - 2 < e.Name.length
        · refine ⟨"read name", ?_⟩
          rw [take_app_left (by omega)]
          rw [readN_short (by rw [length_take_of_le (by omega)]; omega)]
        · rw [take_app_right (a := e.Name) (by omega)]
          simp only [readN_exact (c := e.Name) rfl]
          refine ⟨"read hash", ?_⟩
          have h5 : k - 1 - 8 - 2 - e.Name.length < 32 := by
            simp [length_beBytes, encInt64, hh] at hk
            omega
          rw [readN_short (by rw [length_take_of_le (by omega)]; omega)]

theorem encodeEntries_ok {es : List Entry} (h : ∀ e ∈ es, e.Name.length ≤ 65535) :
    encodeEntries es = .ok (entriesBytes es) := by
  induction es with
  | nil => rfl
  | cons e rest ih =>
    unfold encodeEntries
    rw [encodeEntry_ok (h e (by simp)), ih (fun x hx => h x (by simp [hx]))]
    simp [entriesBytes]

theorem decodeEntriesV1_append {es : List Entry} (hw : ∀ e ∈ es, e.WF)
    (i : Nat) (rest : List Byte) :
    decodeEntriesV1 es.length i (entriesBytes es ++ rest) =
      .ok (es.map Entry.zeroMT, rest) := by
  induction es generalizing i with
  | nil => rfl
  | cons e tail ih =>
    have he : e.WF := hw e (by simp)
    have hs : entriesBytes (e :: tail) ++ rest = entryBytes e ++ (entriesBytes tail ++ rest) := by
      simp [entriesBytes]
    rw [List.length_cons, hs]
    simp only [decodeEntriesV1, decodeEntryV1_append he,
      ih (fun x hx => hw x (by simp [hx]))]
    simp

theorem decodeEntriesV1_trunc {es : List Entry} (hw : ∀ e ∈ es, e.WF)
    (i : Nat) {k : Nat} (hk : k < (entriesBytes es).length) :
    ∃ msg, decodeEntriesV1 es.length i ((entriesBytes es).take k) = .error msg := by
  induction es generalizing i k with
  | nil => simp [entriesBytes] at hk
  | cons e tail ih =>
    have he : e.WF := hw e (by simp)
    have hsplit : entriesBytes (e :: tail) = entryBytes e ++ entriesBytes tail := by
      simp [entriesBytes]
    rw [hsplit] at hk ⊢
    rw [List.length_cons]
    by_cases h1 : k < (entryBytes e).length
    · rw [take_app_left (by omega)]
      obtain ⟨msg, hmsg⟩ := decodeEntryV1_trunc he h1
      exact ⟨"decode entry " ++ toString i ++ ": " ++ msg,
        by simp only [decodeEntriesV1, hmsg]⟩
    · rw [take_app_right (by omega)]
      have hk2 : k - (entryBytes e).length < (entriesBytes tail).length := by
        simp at hk; omega
      obtain ⟨msg, hmsg⟩ := ih (fun x hx => hw x (by simp [hx])) (i + 1) hk2
      exact ⟨msg, by simp only [decodeEntriesV1, decodeEntryV1_append he, hmsg]⟩

theorem readHeader_append {magic : GoStr} (hm : magic.length = 4) (rest : List Byte) :
    readHeader magic (writeHeader magic ++ rest) = .ok (1, rest) := by
  unfold readHeader writeHeader CurrentVersion
  have h6 : readN 6 (magic ++ beBytes 2 1 ++ rest) = some (magic ++ beBytes 2 1, rest) :=
    readN_exact (by simp [hm, length_beBytes])
  rw [h6]
  simp [List.take_left' hm, List.drop_left' hm,
    beVal_beBytes_of_lt (w := 2) (n := 1) (by norm_num)]

theorem readHeader_trunc {magic : GoStr} {d : List Byte} {k : Nat}
    (hk : k < 6) (hd : k ≤ d.length) :
    readHeader magic (d.take k) = .error "read header" := by
  unfold readHeader
  rw [readN_short (by rw [length_take_of_le hd]; omega)]

theorem writeHeader_length {magic : GoStr} (hm : magic.length = 4) :
    (writeHeader magic).length = 6 := by
  simp [writeHeader, length_beBytes, hm]

theorem DecodeBlob_header (r : List Byte) :
    DecodeBlob (writeHeader MagicBlob ++ r) = decodeBlobV1 r := by
  unfold DecodeBlob
  rw [readHeader_append (show MagicBlob.length = 4 by decide)]
  rfl

theorem DecodeTree_header (r : List Byte) :
    DecodeTree (writeHeader MagicTree ++ r) = decodeTreeV1 r := by
  unfold DecodeTree
  rw [readHeader_append (show MagicTree.length = 4 by decide)]
  rfl

theorem DecodeIndex_header (r : List Byte) :
    DecodeIndex (writeHeader MagicIndex ++ r) = decodeIndexV1 r := by
  unfold DecodeIndex
  rw [readHeader_append (show MagicIndex.length = 4 by decide)]
  rfl

/-! ### Blob codec -/
theorem DecodeBlob_append {b : Blob} (hw : b.WF) (extra : List Byte) :
    DecodeBlob (EncodeBlob b ++ extra) = .ok b := by
  have hrep : EncodeBlob b ++ extra =
      writeHeader MagicBlob ++ (beBytes 8 b.Content.length ++ (b.Content ++ extra)) := by
    simp [EncodeBlob]
  have hwc : b.Content.length < 18446744073709551616 := hw
  rw [hrep, DecodeBlob_header]
  unfold decodeBlobV1
  simp only [readN_exact (n := 8) (c := beBytes 8 b.Content.length) (length_beBytes 8 _),
    beVal_beBytes_of_lt (w := 8) (show b.Content.length < 256 ^ 8 by norm_num; omega),
    readN_exact (c := b.Content) rfl]

theorem EncodeBlob_length (b : Blob) :
    (EncodeBlob b).length = 14 + b.Content.length := by
  have h4 : MagicBlob.length = 4 := by decide
  simp [EncodeBlob, writeHeader, length_beBytes, h4]
  omega

theorem DecodeBlob_trunc {b : Blob} (hw : b.WF) {k : Nat}
    (hk : k < (EncodeBlob b).length) :
    ∃ msg, DecodeBlob ((EncodeBlob b).take k) = .error msg := by
  have hlen := EncodeBlob_length b
  by_cases h1 : k < 6
  · exact ⟨"read header", by
      unfold DecodeBlob
      rw [readHeader_trunc h1 (by omega)]⟩
  · have hrep : EncodeBlob b =
        writeHeader MagicBlob ++ (beBytes 8 b.Content.length ++ b.Content) := by
      simp [EncodeBlob]
    have hwh : (writeHeader MagicBlob).length = 6 :=
      writeHeader_length (show MagicBlob.length = 4 by decide)
    rw [hrep]
    rw [take_app_right (a := writeHeader MagicBlob) (by rw [hwh]; omega)]
    rw [DecodeBlob_header, hwh]
    unfold decodeBlobV1
    by_cases h2 : k - 6 < 8
    · refine ⟨"read content length", ?_⟩
      rw [take_app_left (by rw [length_beBytes]; omega)]
      rw [readN_short (by rw [length_take_of_le (by rw [length_beBytes]; omega)]; omega)]
    · have hwc : b.Content.length < 18446744073709551616 := hw
      rw [take_app_right (a := beBytes 8 b.Content.length) (by rw [length_beBytes]; omega)]
      simp only [readN_exact (n := 8) (c := beBytes 8 b.Content.length) (length_beBytes 8 _),
        beVal_beBytes_of_lt (w := 8) (show b.Content.length < 256 ^ 8 by norm_num; omega),
        length_beBytes]
      refine ⟨"read content", ?_⟩
      rw [readN_short (by rw [length_take_of_le (by omega)]; omega)]

/-! ### Tree codec -/
theorem EncodeTree_ok {t : Tree} (hw : t.WF) :
    EncodeTree t =
      .ok (writeHeader MagicTree ++ beBytes 4 t.Entries.length ++ entriesBytes t.Entries) := by
  obtain ⟨hc, he⟩ := hw
  unfold EncodeTree
  rw [if_neg (by omega), encodeEntries_ok (fun e hx => ((he e hx).1))]

theorem DecodeTree_of_encoded {t : Tree} (hw : t.WF) (extra : List Byte) :
    DecodeTree ((writeHeader MagicTree ++ beBytes 4 t.Entries.length ++
        entriesBytes t.Entries) ++ extra) =
      .ok ⟨t.Entries.map Entry.zeroMT⟩ := by
  obtain ⟨hc, he⟩ := hw
  have hrep : (writeHeader MagicTree ++ beBytes 4 t.Entries.length ++
      entriesBytes t.Entries) ++ extra =
      writeHeader MagicTree ++ (beBytes 4 t.Entries.length ++ (entriesBytes t.Entries ++ extra)) := by
    simp
  rw [hrep, DecodeTree_header]
  unfold decodeTreeV1
  simp only [readN_exact (n := 4) (c := beBytes 4 t.Entries.length) (length_beBytes 4 _),
    beVal_beBytes_of_lt (w := 4) (show t.Entries.length < 256 ^ 4 by norm_num; omega),
    decodeEntriesV1_append he 0]

theorem DecodeTree_trunc {t : Tree} (hw : t.WF) {k : Nat}
    (hk : k < (writeHeader MagicTree ++ beBytes 4 t.Entries.length ++
      entriesBytes t.Entries).length) :
    ∃ msg, DecodeTree ((writeHeader MagicTree ++ beBytes 4 t.Entries.length ++
      entriesBytes t.Entries).take k) = .error msg := by
  obtain ⟨hc, he⟩ := hw
  have hwh : (writeHeader MagicTree).length = 6 := writeHeader_length (by decide)
  have hlen : (writeHeader MagicTree ++ beBytes 4 t.Entries.length ++
      entriesBytes t.Entries).length = 10 + (entriesBytes t.Entries).length := by
    simp [hwh, length_beBytes]; omega
  by_cases h1 : k < 6
  · exact ⟨"read header", by
      unfold DecodeTree
      rw [readHeader_trunc h1 (by omega)]⟩
  · have hrep : writeHeader MagicTree ++ beBytes 4 t.Entries.length ++
        entriesBytes t.Entries =
        writeHeader MagicTree ++ (beBytes 4 t.Entries.length ++ entriesBytes t.Entries) := by
      simp
    rw [hrep] at hk ⊢
    rw [take_app_right (a := writeHeader MagicTree) (by omega)]
    rw [DecodeTree_header, hwh]
    unfold decodeTreeV1
    by_cases h2 : k - 6 < 4
    · refine ⟨"read entry count", ?_⟩
      rw [take_app_left (by rw [length_beBytes]; omega)]
      rw [readN_short (by rw [length_take_of_le (by rw [length_beBytes]; omega)]; omega)]
    · rw [take_app_right (a := beBytes 4 t.Entries.length) (by rw [length_beBytes]; omega)]
      simp only [readN_exact (n := 4) (c := beBytes 4 t.Entries.length) (length_beBytes 4 _),
        beVal_beBytes_of_lt (w := 4) (show t.Entries.length < 256 ^ 4 by norm_num; omega),
        length_beBytes]
      have hk2 : k - 6 - 4 < (entriesBytes t.Entries).length := by
        rw [hrep] at hlen
        omega
      obtain ⟨msg, hmsg⟩ := decodeEntriesV1_trunc he 0 hk2
      exact ⟨msg, by rw [hmsg]⟩

/-! ### Index codec -/
theorem decInt32_beBytes {n : Nat} (h : n < 2147483648) :
    decInt32 (beBytes 4 n) = (n : Int) := by
  unfold decInt32
  rw [beVal_beBytes_of_lt (by norm_num; omega)]
  rw [if_pos (by omega)]

theorem encodeIndexEntry_ok {e : IndexEntry} (h : e.Path.length ≤ 65535) :
    encodeIndexEntry e = .ok (indexEntryBytes e) := by
  unfold encodeIndexEntry indexEntryBytes
  rw [if_neg (by omega)]

theorem indexEntryBytes_length {e : IndexEntry} (hh : e.Hash.length = 32) :
    (indexEntryBytes e).length = 54 + e.Path.length := by
  simp [indexEntryBytes, length_beBytes, encInt64, hh]
  omega

theorem decodeIndexEntryV1_append {e : IndexEntry} (hw : e.WF) (rest : List Byte) :
    decodeIndexEntryV1 (indexEntryBytes e ++ rest) = .ok (e, rest) := by
  obtain ⟨hp, hh, hs1, hs2, ht1, ht2, ht3⟩ := hw
  unfold decodeIndexEntryV1 indexEntryBytes
  simp only [List.append_assoc]
  simp only [readN_exact (n := 2) (c := beBytes 2 e.Path.length) (length_beBytes 2 _),
    beVal_beBytes_of_lt (w := 2) (show e.Path.length < 256 ^ 2 by norm_num; omega),
    readN_exact (c := e.Path) rfl,
    readN_exact (n := 8) (c := encInt64 e.Size) (by simp [encInt64, length_beBytes]),
    readN_exact (n := 8) (c := encInt64 e.ModTime.sec) (by simp [encInt64, length_beBytes]),
    readN_exact (n := 4) (c := beBytes 4 e.ModTime.nsec) (length_beBytes 4 _),
    readN_exact (n := 32) (c := e.Hash) hh,
    decInt64_encInt64 hs1 hs2, decInt64_encInt64 ht1 ht2,
    decInt32_beBytes (show e.ModTime.nsec < 2147483648 by omega)]
  rw [timeUnix_of_norm (show (0:Int) ≤ (e.ModTime.nsec : Int) by omega) (by omega)]
  simp

theorem decodeIndexEntryV1_trunc {e : IndexEntry} (hw : e.WF) {k : Nat}
    (hk : k < (indexEntryBytes e).length) :
    ∃ msg, decodeIndexEntryV1 ((indexEntryBytes e).take k) = .error msg := by
  obtain ⟨hp, hh, hs1, hs2, ht1, ht2, ht3⟩ := hw
  have hlen := indexEntryBytes_length hh
  unfold indexEntryBytes at hlen hk ⊢
  unfold decodeIndexEntryV1
  simp only [List.append_assoc] at hk ⊢
  by_cases h1 : k < 2
  · refine ⟨"read path length", ?_⟩
    rw [take_app_left (by rw [length_beBytes]; omega)]
    rw [readN_short (by rw [length_take_of_le (by rw [length_beBytes]; omega)]; omega)]
  · rw [take_app_right (a := beBytes 2 e.Path.length) (by rw [length_beBytes]; omega)]
    simp only [readN_exact (n := 2) (c := beBytes 2 e.Path.length) (length_beBytes 2 _),
      beVal_beBytes_of_lt (w := 2) (show e.Path.length < 256 ^ 2 by norm_num; omega)]
    simp only [length_beBytes]
    by_cases h2 : k - 2 < e.Path.length
    · refine ⟨"read path", ?_⟩
      rw [take_app_left (by omega)]
      rw [readN_short (by rw [length_take_of_le (by omega)]; omega)]
    · rw [take_app_right (a := e.Path) (by omega)]
      simp only [readN_exact (c := e.Path) rfl]
      by_cases h3 : k - 2 - e.Path.length < 8
      · refine ⟨"read size", ?_⟩
        rw [take_app_left (by simp [encInt64, length_beBytes]; omega)]
        rw [readN_short (by rw [length_take_of_le (by simp [encInt64, length_beBytes]; omega)]; omega)]
      · rw [take_app_right (a := encInt64 e.Size) (by simp [encInt64, length_beBytes]; omega)]
        simp only [readN_exact (n := 8) (c := encInt64 e.Size) (by simp [encInt64, length_beBytes])]
        simp only [encInt64, length_beBytes]
        by_cases h4 : k - 2 - e.Path.length - 8 < 8
        · refine ⟨"read modtime seconds", ?_⟩
          rw [take_app_left (by rw [length_beBytes]; omega)]
          rw [readN_short (by rw [length_take_of_le (by rw [length_beBytes]; omega)]; omega)]
        · rw [take_app_right (a := beBytes 8 (e.ModTime.sec % 18446744073709551616).toNat)
            (by rw [length_beBytes]; omega)]
          simp only [readN_exact (n := 8)
            (c := beBytes 8 (e.ModTime.sec % 18446744073709551616).toNat) (length_beBytes 8 _),
            length_beBytes]
          by_cases h5 : k - 2 - e.Path.length - 8 - 8 < 4
          · refine ⟨"read modtime nanoseconds", ?_⟩
            rw [take_app_left (by rw [length_beBytes]; omega)]
            rw [readN_short (by rw [length_take_of_le (by rw [length_beBytes]; omega)]; omega)]
          · rw [take_app_right (a := beBytes 4 e.ModTime.nsec) (by rw [length_beBytes]; omega)]
            simp only [readN_exact (n := 4) (c := beBytes 4 e.ModTime.nsec) (length_beBytes 4 _),
              length_beBytes]
            refine ⟨"read hash", ?_⟩
            have h6 : k - 2 - e.Path.length - 8 - 8 - 4 < 32 := by
              simp [length_beBytes, encInt64, hh] at hk
              omega
            rw [readN_short (by rw [length_take_of_le (by omega)]; omega)]

theorem encodeIndexEntries_ok {es : List IndexEntry}
    (h : ∀ e ∈ es, e.Path.length ≤ 65535) :
    encodeIndexEntries es = .ok (indexEntriesBytes es) := by
  induction es with
  | nil => rfl
  | cons e rest ih =>
    unfold encodeIndexEntries
    rw [encodeIndexEntry_ok (h e (by simp)), ih (fun x hx => h x (by simp [hx]))]
    simp [indexEntriesBytes]

theorem decodeIndexEntriesV1_append {es : List IndexEntry} (hw : ∀ e ∈ es, e.WF)
    (i : Nat) (rest : List Byte) :
    decodeIndexEntriesV1 es.length i (indexEntriesBytes es ++ rest) = .ok (es, rest) := by
  induction es generalizing i with
  | nil => rfl
  | cons e tail ih =>
    have he : e.WF := hw e (by simp)
    have hs : indexEntriesBytes (e :: tail) ++ rest =
        indexEntryBytes e ++ (indexEntriesBytes tail ++ rest) := by
      simp [indexEntriesBytes]
    rw [List.length_cons, hs]
    simp only [decodeIndexEntriesV1, decodeIndexEntryV1_append he,
      ih (fun x hx => hw x (by simp [hx]))]

theorem decodeIndexEntriesV1_trunc {es : List IndexEntry} (hw : ∀ e ∈ es, e.WF)
    (i : Nat) {k : Nat} (hk : k < (indexEntriesBytes es).length) :
    ∃ msg, decodeIndexEntriesV1 es.length i ((indexEntriesBytes es).take k) = .error msg := by
  induction es generalizing i k with
  | nil => simp [indexEntriesBytes] at hk
  | cons e tail ih =>
    have he : e.WF := hw e (by simp)
    have hsplit : indexEntriesBytes (e :: tail) =
        indexEntryBytes e ++ indexEntriesBytes tail := by
      simp [indexEntriesBytes]
    rw [hsplit] at hk ⊢
    rw [List.length_cons]
    by_cases h1 : k < (indexEntryBytes e).length
    · rw [take_app_left (by omega)]
      obtain ⟨msg, hmsg⟩ := decodeIndexEntryV1_trunc he h1
      exact ⟨"decode entry " ++ toString i ++ ": " ++ msg,
        by simp only [decodeIndexEntriesV1, hmsg]⟩
    · rw [take_app_right (by omega)]
      have hk2 : k - (indexEntryBytes e).length < (indexEntriesBytes tail).length := by
        simp at hk; omega
      obtain ⟨msg, hmsg⟩ := ih (fun x hx => hw x (by simp [hx])) (i + 1) hk2
      exact ⟨msg, by simp only [decodeIndexEntriesV1, decodeIndexEntryV1_append he, hmsg]⟩

theorem EncodeIndex_ok {idx : Index} (hw : idx.WF) :
    EncodeIndex idx =
      .ok (writeHeader MagicIndex ++ beBytes 4 idx.Entries.length ++
        indexEntriesBytes idx.Entries) := by
  obtain ⟨hc, he⟩ := hw
  unfold EncodeIndex
  rw [if_neg (by omega), encodeIndexEntries_ok (fun e hx => ((he e hx).1))]

theorem DecodeIndex_of_encoded {idx : Index} (hw : idx.WF) (extra : List Byte) :
    DecodeIndex ((writeHeader MagicIndex ++ beBytes 4 idx.Entries.length ++
        indexEntriesBytes idx.Entries) ++ extra) = .ok idx := by
  obtain ⟨hc, he⟩ := hw
  have hrep : (writeHeader MagicIndex ++ beBytes 4 idx.Entries.length ++
      indexEntriesBytes idx.Entries) ++ extra =
      writeHeader MagicIndex ++ (beBytes 4 idx.Entries.length ++
        (indexEntriesBytes idx.Entries ++ extra)) := by
    simp
  rw [hrep, DecodeIndex_header]
  unfold decodeIndexV1
  simp only [readN_exact (n := 4) (c := beBytes 4 idx.Entries.length) (length_beBytes 4 _),
    beVal_beBytes_of_lt (w := 4) (show idx.Entries.length < 256 ^ 4 by norm_num; omega),
    decodeIndexEntriesV1_append he 0]

theorem DecodeIndex_trunc {idx : Index} (hw : idx.WF) {k : Nat}
    (hk : k < (writeHeader MagicIndex ++ beBytes 4 idx.Entries.length ++
      indexEntriesBytes idx.Entries).length) :
    ∃ msg, DecodeIndex ((writeHeader MagicIndex ++ beBytes 4 idx.Entries.length ++
      indexEntriesBytes idx.Entries).take k) = .error msg := by
  obtain ⟨hc, he⟩ := hw
  have hwh : (writeHeader MagicIndex).length = 6 := writeHeader_length (by decide)
  have hlen : (writeHeader MagicIndex ++ beBytes 4 idx.Entries.length ++
      indexEntriesBytes idx.Entries).length = 10 + (indexEntriesBytes idx.Entries).length := by
    simp [hwh, length_beBytes]; omega
  by_cases h1 : k < 6
  · exact ⟨"read header", by
      unfold DecodeIndex
      rw [readHeader_trunc h1 (by omega)]⟩
  · have hrep : writeHeader MagicIndex ++ beBytes 4 idx.Entries.length ++
        indexEntriesBytes idx.Entries =
        writeHeader MagicIndex ++ (beBytes 4 idx.Entries.length ++
          indexEntriesBytes idx.Entries) := by
      simp
    rw [hrep] at hk ⊢
    rw [take_app_right (a := writeHeader MagicIndex) (by omega)]
    rw [DecodeIndex_header, hwh]
    unfold decodeIndexV1
    by_cases h2 : k - 6 < 4
    · refine ⟨"read entry count", ?_⟩
      rw [take_app_left (by rw [length_beBytes]; omega)]
      rw [readN_short (by rw [length_take_of_le (by rw [length_beBytes]; omega)]; omega)]
    · rw [take_app_right (a := beBytes 4 idx.Entries.length) (by rw [length_beBytes]; omega)]
      simp only [readN_exact (n := 4) (c := beBytes 4 idx.Entries.length) (length_beBytes 4 _),
        beVal_beBytes_of_lt (w := 4) (show idx.Entries.length < 256 ^ 4 by norm_num; omega),
        length_beBytes]
      have hk2 : k - 6 - 4 < (indexEntriesBytes idx.Entries).length := by
        rw [hrep] at hlen
        omega
      obtain ⟨msg, hmsg⟩ := decodeIndexEntriesV1_trunc he 0 hk2
      exact ⟨msg, by rw [hmsg]⟩

end Object
namespace Ignore
theorem getLast?_cons_eq {A : Type} (p : A) (l : List A) :
    (p :: l).getLast? = some ((l.getLast?).getD p) := by
  cases l with
  | nil => simp
  | cons x xs =>
    rw [List.getLast?_cons_cons]
    cases hl : (x :: xs).getLast? with
    | none => simp [List.getLast?_eq_none_iff] at hl
    | some y => simp [hl]

theorem matchResult_foldl (path : GoStr) (isDir : Bool) :
    ∀ (ps : List Pattern) (z : Result),
      ps.foldl
        (fun result p =>
          if p.matchFn path isDir then
            if p.negated then
              ⟨false, p.original, true, p.lineNumber⟩
            else
              ⟨true, p.original, false, p.lineNumber⟩
          else result) z =
      match (ps.filter (fun p => p.matchFn path isDir)).getLast? with
      | none => z
      | some p => resultOfLast (some p) := by
  intro ps
  induction ps with
  | nil => intro z; rfl
  | cons p rest ih =>
    intro z
    rw [List.foldl_cons]
    by_cases hp : p.matchFn path isDir
    · rw [List.filter_cons_of_pos (by simpa using hp), getLast?_cons_eq, ih]
      cases hrest : (rest.filter (fun q => q.matchFn path isDir)).getLast? with
      | none => simp [hrest, hp, resultOfLast]
      | some q => simp [hrest, resultOfLast]
    · rw [List.filter_cons_of_neg (by simpa using hp), ih]
      simp [hp]

/-- Source `MatchResult` is last-match-wins: it equals the result determined by
the last pattern (in source order) that matches, and the zero result when
none matches. -/
theorem MatchResult_eq_resultOfLast (ps : List Pattern) (path : GoStr) (isDir : Bool) :
    MatchResult ps path isDir =
      resultOfLast ((ps.filter (fun p => p.matchFn path isDir)).getLast?) := by
  rw [MatchResult, matchResult_foldl]
  cases (ps.filter (fun p => p.matchFn path isDir)).getLast? with
  | none => rfl
  | some q => rfl

end Ignore
theorem strLt_irrefl (s : GoStr) : strLt s s = false := by
  induction s with
  | nil => rfl
  | cons a as ih => simp [strLt, ih]

namespace Diff
/-! ### Differ lemmas -/
theorem run_add_types (s : TreeStore) (opts : Options) :
    ∀ fuel : Nat,
      (∀ h pre ct cs, run s opts fuel (.addAll h pre ct) = .ok cs →
        ∀ c ∈ cs, c.type = ct) ∧
      (∀ es pre ct cs, run s opts fuel (.addList es pre ct) = .ok cs →
        ∀ c ∈ cs, c.type = ct) := by
  intro fuel
  induction fuel with
  | zero =>
    constructor
    · intro h pre ct cs hrun
      simp [run] at hrun
    · intro es pre ct cs hrun
      simp [run] at hrun
  | succ n ih =>
    constructor
    · intro h pre ct cs hrun
      rw [run] at hrun
      cases hl : loadTree s h with
      | error e => rw [hl] at hrun; exact absurd hrun (by simp)
      | ok tree =>
        rw [hl] at hrun
        exact ih.2 tree.Entries pre ct cs hrun
    · intro es pre ct cs hrun
      cases es with
      | nil =>
        rw [run] at hrun
        simp at hrun
        subst hrun
        simp
      | cons entry rest =>
        rw [run] at hrun
        by_cases hd : entry.Mode = Object.ModeDirectory
        · rw [if_pos hd] at hrun
          cases h1 : run s opts n (.addAll entry.Hash (joinPath pre entry.Name) ct) with
          | error e => rw [h1] at hrun; exact absurd hrun (by simp)
          | ok sub =>
            rw [h1] at hrun
            cases h2 : run s opts n (.addList rest pre ct) with
            | error e => rw [h2] at hrun; exact absurd hrun (by simp)
            | ok tl =>
              rw [h2] at hrun
              simp at hrun
              intro c hc
              rw [← hrun] at hc
              rcases List.mem_cons.mp hc with hc0 | hc1
              · rw [hc0]; rfl
              · rcases List.mem_append.mp hc1 with hcs | hct
                · exact (ih.1 entry.Hash (joinPath pre entry.Name) ct sub h1) c hcs
                · exact (ih.2 rest pre ct tl h2) c hct
        · rw [if_neg hd] at hrun
          cases h2 : run s opts n (.addList rest pre ct) with
          | error e => rw [h2] at hrun; exact absurd hrun (by simp)
          | ok tl =>
            rw [h2] at hrun
            simp at hrun
            intro c hc
            rw [← hrun] at hc
            rcases List.mem_cons.mp hc with hc0 | hct
            · rw [hc0]; rfl
            · exact (ih.2 rest pre ct tl h2) c hct

theorem run_lists_nil_old (s : TreeStore) (opts : Options) :
    ∀ fuel news pre cs, run s opts fuel (.lists [] news pre) = .ok cs →
      ∀ c ∈ cs, c.type = .added := by
  intro fuel
  induction fuel with
  | zero => intro news pre cs hrun; simp [run] at hrun
  | succ n ih =>
    intro news pre cs hrun
    cases news with
    | nil =>
      rw [run] at hrun
      simp at hrun
      subst hrun
      simp
    | cons newEntry newRest =>
      rw [run] at hrun
      by_cases hd : opts.Recursive && newEntry.Mode = Object.ModeDirectory
      · rw [if_pos hd] at hrun
        cases h1 : run s opts n (.addAll newEntry.Hash (joinPath pre newEntry.Name) .added) with
        | error e => rw [h1] at hrun; exact absurd hrun (by simp)
        | ok sub =>
          rw [h1] at hrun
          cases h2 : run s opts n (.lists [] newRest pre) with
          | error e => rw [h2] at hrun; exact absurd hrun (by simp)
          | ok tl =>
            rw [h2] at hrun
            simp at hrun
            intro c hc
            rw [← hrun] at hc
            rcases List.mem_cons.mp hc with hc0 | hc1
            · rw [hc0]
            · rcases List.mem_append.mp hc1 with hcs | hct
              · exact ((run_add_types s opts n).1 _ _ _ _ h1) c hcs
              · exact ih newRest pre tl h2 c hct
      · rw [if_neg hd] at hrun
        cases h2 : run s opts n (.lists [] newRest pre) with
        | error e => rw [h2] at hrun; exact absurd hrun (by simp)
        | ok tl =>
          rw [h2] at hrun
          simp at hrun
          intro c hc
          rw [← hrun] at hc
          rcases List.mem_cons.mp hc with hc0 | hct
          · rw [hc0]
          · exact ih newRest pre tl h2 c hct

theorem run_lists_nil_new (s : TreeStore) (opts : Options) :
    ∀ fuel olds pre cs, run s opts fuel (.lists olds [] pre) = .ok cs →
      ∀ c ∈ cs, c.type = .deleted := by
  intro fuel
  induction fuel with
  | zero => intro olds pre cs hrun; simp [run] at hrun
  | succ n ih =>
    intro olds pre cs hrun
    cases olds with
    | nil =>
      rw [run] at hrun
      simp at hrun
      subst hrun
      simp
    | cons oldEntry oldRest =>
      rw [run] at hrun
      by_cases hd : opts.Recursive && oldEntry.Mode = Object.ModeDirectory
      · rw [if_pos hd] at hrun
        cases h1 : run s opts n (.addAll oldEntry.Hash (joinPath pre oldEntry.Name) .deleted) with
        | error e => rw [h1] at hrun; exact absurd hrun (by simp)
        | ok sub =>
          rw [h1] at hrun
          cases h2 : run s opts n (.lists oldRest [] pre) with
          | error e => rw [h2] at hrun; exact absurd hrun (by simp)
          | ok tl =>
            rw [h2] at hrun
            simp at hrun
            intro c hc
            rw [← hrun] at hc
            rcases List.mem_cons.mp hc with hc0 | hc1
            · rw [hc0]
            · rcases List.mem_append.mp hc1 with hcs | hct
              · exact ((run_add_types s opts n).1 _ _ _ _ h1) c hcs
              · exact ih oldRest pre tl h2 c hct
      · rw [if_neg hd] at hrun
        cases h2 : run s opts n (.lists oldRest [] pre) with
        | error e => rw [h2] at hrun; exact absurd hrun (by simp)
        | ok tl =>
          rw [h2] at hrun
          simp at hrun
          intro c hc
          rw [← hrun] at hc
          rcases List.mem_cons.mp hc with hc0 | hct
          · rw [hc0]
          · exact ih oldRest pre tl h2 c hct

theorem run_lists_sameShape (s : TreeStore) (opts : Options) :
    ∀ {olds news : List Object.Entry}, List.Forall₂ SameShape olds news →
      ∀ fuel pre, olds.length < fuel →
        run s opts fuel (.lists olds news pre) = .ok [] := by
  intro olds news hf
  induction hf with
  | nil =>
    intro fuel pre hfuel
    cases fuel with
    | zero => exact absurd hfuel (by omega)
    | succ n => rw [run]
  | cons hab htail ih =>
    intro fuel pre hfuel
    cases fuel with
    | zero => exact absurd hfuel (by omega)
    | succ n =>
      rw [run]
      simp only
      obtain ⟨hname, hhash, hdir⟩ := hab
      rw [hname, strLt_irrefl, if_neg (by simp)]
      rw [if_neg (by simp)]
      rw [if_neg (by simp [decide_eq_decide.mpr hdir])]
      rw [if_neg (by simp [hhash])]
      exact ih n pre (by simp at hfuel ⊢; omega)

end Diff
/-- C1 (amended): codec round-trip.  For well-formed values, blobs and
indexes decode back exactly to themselves; trees decode back with every
field of every entry preserved except `ModTime`, which is not serialized
and comes back as the Go zero `time.Time`. -/
theorem c1_codec_roundtrip_amended (b : Object.Blob) (t : Object.Tree) (idx : Object.Index)
    (hb : b.WF) (ht : t.WF) (hi : idx.WF) :
    blobRoundTrip b = .ok b ∧
    treeRoundTrip t = .ok ⟨t.Entries.map Object.Entry.zeroMT⟩ ∧
    indexRoundTrip idx = .ok idx := by
  refine ⟨?_, ?_, ?_⟩
  · have h := Object.DecodeBlob_append hb []
    rw [List.append_nil] at h
    exact h
  · rw [treeRoundTrip, Object.EncodeTree_ok ht]
    have h := Object.DecodeTree_of_encoded ht []
    rw [List.append_nil] at h
    simpa [Except.bind] using h
  · rw [indexRoundTrip, Object.EncodeIndex_ok hi]
    have h := Object.DecodeIndex_of_encoded hi []
    rw [List.append_nil] at h
    simpa [Except.bind] using h

/-- C1 counterexample: the claim as stated ("DecodeTree(EncodeTree(t))
returns a tree equal to t") fails, because the tree codec drops entry
modification times: a tree whose single entry has `ModTime` = Unix epoch
decodes back with `ModTime` equal to the Go zero time. -/
theorem c1_tree_modtime_counterexample : treeRoundTrip c1Tree ≠ .ok c1Tree := by
  have h : treeRoundTrip c1Tree =
      .ok ⟨[⟨gs "a", Object.ModeRegular, 0, goTimeZero, Object.ZeroHash⟩]⟩ := by rfl
  rw [h]
  intro hcontra
  simp [c1Tree, goTimeZero] at hcontra

/-- C1 witness: the amended round-trip at a concrete blob, tree and
index. -/
theorem c1_roundtrip_witness :
    blobRoundTrip ⟨[104, 105]⟩ = .ok ⟨[104, 105]⟩ ∧
    treeRoundTrip c1Tree =
      .ok ⟨[⟨gs "a", Object.ModeRegular, 0, goTimeZero, Object.ZeroHash⟩]⟩ ∧
    indexRoundTrip ⟨[⟨gs "a", 2, ⟨5, 6⟩, Object.ZeroHash⟩]⟩ =
      .ok ⟨[⟨gs "a", 2, ⟨5, 6⟩, Object.ZeroHash⟩]⟩ :=
  c1_codec_roundtrip_amended ⟨[104, 105]⟩ c1Tree ⟨[⟨gs "a", 2, ⟨5, 6⟩, Object.ZeroHash⟩]⟩
    (by decide) (by decide) (by decide)

/-- C8 (amended): every decoder rejects truncated input — every strict
prefix of a valid encoding fails, with an error message naming the field
whose read failed — but trailing bytes after the encoded payload are NOT
rejected: the decoders ignore any remainder and succeed. -/
theorem c8_decoders_amended (b : Object.Blob) (t : Object.Tree) (idx : Object.Index)
    (hb : b.WF) (ht : t.WF) (hi : idx.WF) :
    (∀ extra, Object.DecodeBlob (Object.EncodeBlob b ++ extra) = .ok b) ∧
    (∀ k, k < (Object.EncodeBlob b).length →
      ∃ msg, Object.DecodeBlob ((Object.EncodeBlob b).take k) = .error msg) ∧
    (∀ data extra, Object.EncodeTree t = .ok data →
      Object.DecodeTree (data ++ extra) = .ok ⟨t.Entries.map Object.Entry.zeroMT⟩) ∧
    (∀ data k, Object.EncodeTree t = .ok data → k < data.length →
      ∃ msg, Object.DecodeTree (data.take k) = .error msg) ∧
    (∀ data extra, Object.EncodeIndex idx = .ok data →
      Object.DecodeIndex (data ++ extra) = .ok idx) ∧
    (∀ data k, Object.EncodeIndex idx = .ok data → k < data.length →
      ∃ msg, Object.DecodeIndex (data.take k) = .error msg) := by
  refine ⟨fun extra => Object.DecodeBlob_append hb extra,
    fun k hk => Object.DecodeBlob_trunc hb hk, ?_, ?_, ?_, ?_⟩
  · intro data extra hdata
    rw [Object.EncodeTree_ok ht] at hdata
    cases hdata
    exact Object.DecodeTree_of_encoded ht extra
  · intro data k hdata hk
    rw [Object.EncodeTree_ok ht] at hdata
    cases hdata
    exact Object.DecodeTree_trunc ht hk
  · intro data extra hdata
    rw [Object.EncodeIndex_ok hi] at hdata
    cases hdata
    exact Object.DecodeIndex_of_encoded hi extra
  · intro data k hdata hk
    rw [Object.EncodeIndex_ok hi] at hdata
    cases hdata
    exact Object.DecodeIndex_trunc hi hk

/-- C8 counterexample: `DecodeBlob` accepts a valid blob encoding with a
trailing byte appended, contradicting "every decoder rejects input that
has trailing bytes remaining after the encoded payload". -/
theorem c8_trailing_accepted_counterexample :
    Object.DecodeBlob (Object.EncodeBlob ⟨[]⟩ ++ [9]) = .ok ⟨[]⟩ := by rfl

/-- C8 witness: the amended theorem at a concrete blob, with trailing
bytes accepted and a 7-byte truncation rejected. -/
theorem c8_witness :
    Object.DecodeBlob (Object.EncodeBlob ⟨[5]⟩ ++ [9]) = .ok ⟨[5]⟩ :=
  (c8_decoders_amended ⟨[5]⟩ ⟨[]⟩ ⟨[]⟩ (by decide) (by decide) (by decide)).1 [9]

/-- C10: tree decoding does not validate the mode byte.  For every byte
value `m` (all of `0 … 255`, not merely the four defined modes), a tree
whose entry carries mode `m` encodes and decodes back with that exact
mode value; decoding never fails because of an out-of-range mode. -/
theorem c10_mode_byte_preserved (m : Object.Mode) (name : GoStr) (size : Int)
    (mt : Timestamp) (h : Object.Hash)
    (hn : name.length ≤ 65535) (hh : h.length = 32)
    (hs1 : -9223372036854775808 ≤ size) (hs2 : size < 9223372036854775808) :
    treeRoundTrip ⟨[⟨name, m, size, mt, h⟩]⟩ =
      .ok ⟨[⟨name, m, size, goTimeZero, h⟩]⟩ := by
  have ht : Object.Tree.WF ⟨[⟨name, m, size, mt, h⟩]⟩ := by
    refine ⟨by simp, ?_⟩
    intro e he
    simp at he
    subst he
    exact ⟨hn, hh, hs1, hs2⟩
  rw [treeRoundTrip, Object.EncodeTree_ok ht]
  have hd := Object.DecodeTree_of_encoded ht []
  rw [List.append_nil] at hd
  simpa [Except.bind, Object.Entry.zeroMT] using hd

/-- C10 witness: mode byte 200 — far outside the defined range 0..3 —
survives a tree encode/decode round trip. -/
theorem c10_witness :
    treeRoundTrip ⟨[⟨gs "x", 200, 7, ⟨1, 2⟩, Object.ZeroHash⟩]⟩ =
      .ok ⟨[⟨gs "x", 200, 7, goTimeZero, Object.ZeroHash⟩]⟩ :=
  c10_mode_byte_preserved 200 (gs "x") 7 ⟨1, 2⟩ Object.ZeroHash
    (by decide) (by decide) (by decide) (by decide)

/-- C5: `LookupCache` returns the stored hash (a hit) iff the index maps
the path to an entry whose `Path`, `Size` and `ModTime` all exactly equal
the arguments — modification time compared as the full `(sec, nsec)`
instant, i.e. at nanosecond precision; any mismatch is a miss. -/
theorem c5_lookup_cache_exact_triple (index : GoStr → Option Object.IndexEntry)
    (path : GoStr) (size : Int) (mt : Timestamp) :
    ((Store.LookupCache index path size mt).2 = true ↔
      ∃ e, index path = some e ∧ e.Path = path ∧ e.Size = size ∧ e.ModTime = mt) ∧
    (∀ e, index path = some e → e.Path = path → e.Size = size → e.ModTime = mt →
      Store.LookupCache index path size mt = (e.Hash, true)) ∧
    ((Store.LookupCache index path size mt).2 = false →
      (Store.LookupCache index path size mt).1 = Object.ZeroHash) := by
  refine ⟨?_, ?_, ?_⟩
  · unfold Store.LookupCache
    cases hidx : index path with
    | none => simp
    | some e =>
      simp only [Option.some.injEq]
      by_cases hm : e.Matches path size mt
      · rw [if_pos hm]
        simp only [Object.IndexEntry.Matches, Bool.and_eq_true, decide_eq_true_iff] at hm
        constructor
        · intro _
          exact ⟨e, rfl, hm.1.1, hm.1.2, hm.2⟩
        · intro _; rfl
      · rw [if_neg hm]
        simp only [Object.IndexEntry.Matches, Bool.and_eq_true, decide_eq_true_iff] at hm
        constructor
        · intro hfalse; exact absurd hfalse (by simp)
        · rintro ⟨e2, he2, hp, hs, hmt⟩
          cases he2
          exact absurd ⟨⟨hp, hs⟩, hmt⟩ hm
  · intro e he hp hs hmt
    unfold Store.LookupCache
    rw [he]
    simp [Object.IndexEntry.Matches, hp, hs, hmt]
  · unfold Store.LookupCache
    cases hidx : index path with
    | none => intro _; rfl
    | some e =>
      simp only [Option.some.injEq]
      by_cases hm : e.Matches path size mt
      · rw [if_pos hm]; intro hfalse; exact absurd hfalse (by simp)
      · rw [if_neg hm]; intro _; rfl

/-- C5 witness: a hit on the exact `(path, size, modtime)` triple returns
the stored hash. -/
theorem c5_witness :
    Store.LookupCache c5Index (gs "a") 5 ⟨1, 2⟩ = (c5Hash, true) :=
  (c5_lookup_cache_exact_triple c5Index (gs "a") 5 ⟨1, 2⟩).2.1
    ⟨gs "a", 5, ⟨1, 2⟩, c5Hash⟩ (by rfl) rfl rfl rfl

/-- C7 (amended): `Flush` on a clean store is a no-op; on a dirty store it
serializes the full in-memory index and writes it DIRECTLY to `R/index`
with mode 0600 via a single `os.WriteFile` — there is no temp file and no
rename — and clears the dirty flag; consequently a second consecutive
`Flush` is a no-op (idempotent). -/
theorem c7_flush_amended (root : GoStr) (st : Store.State) :
    (st.dirty = false → Store.Flush root st = .ok (st, [])) ∧
    (∀ data, st.dirty = true → Object.EncodeIndex ⟨st.values⟩ = .ok data →
      Store.Flush root st =
        .ok ({ st with dirty := false },
          [.writeFile (fpJoin root (gs "index")) data 0o600])) ∧
    (∀ st2 ops, Store.Flush root st = .ok (st2, ops) →
      Store.Flush root st2 = .ok (st2, [])) := by
  refine ⟨?_, ?_, ?_⟩
  · intro hd
    unfold Store.Flush
    rw [hd]
    rfl
  · intro data hd henc
    unfold Store.Flush
    rw [hd, henc]
    rfl
  · intro st2 ops hrun
    unfold Store.Flush at hrun ⊢
    cases hd : st.dirty with
    | false =>
      rw [hd] at hrun
      simp at hrun
      rw [← hrun.1, hd]
      simp [hrun.1]
    | true =>
      rw [hd] at hrun
      simp only [Bool.not_true, Bool.false_eq_true, if_false] at hrun
      cases henc : Object.EncodeIndex ⟨st.values⟩ with
      | error e => rw [henc] at hrun; exact absurd hrun (by simp)
      | ok data =>
        rw [henc] at hrun
        simp at hrun
        rw [← hrun.1]
        rfl

/-- C7 counterexample: flushing a dirty store succeeds while performing
no temp-file creation and no rename at all — the index is written with a
single direct `WriteFile` — contradicting "writes it to a temp file,
renames that temp file over R/index". -/
theorem c7_no_rename_counterexample :
    (Store.Flush (gs "R") c7State).toOption.map
      (fun r => r.2.any Store.FsOp.isTempOrRename) = some false := by rfl

/-- C7 witness: a clean store flushes as a no-op. -/
theorem c7_witness : Store.Flush (gs "R") ⟨[], false⟩ = .ok (⟨[], false⟩, []) :=
  (c7_flush_amended (gs "R") ⟨[], false⟩).1 rfl

theorem hexOfHash_length (h : Object.Hash) :
    (Store.hexOfHash h).length = 2 * h.length := by
  induction h with
  | nil => rfl
  | cons b t ih =>
    simp [Store.hexOfHash] at ih ⊢
    omega

/-- C9 (amended): `HasObject(h)` is true iff `os.Stat` on the sharded
object path `R/objects/hex[0..2]/hex[2..]` succeeds — that is, iff
ANYTHING exists at that path, regardless of whether it is a regular
file; and for a 32-byte hash the hex string split by the shard layout
has length 64. -/
theorem c9_hasobject_amended (fs : GoStr → Option Store.StatKind)
    (root : GoStr) (h : Object.Hash) :
    (Store.HasObject fs root h = true ↔ ∃ k, fs (Store.objectPath root h) = some k) ∧
    (h.length = 32 → (Store.hexOfHash h).length = 64 ∧
      Store.objectPath root h =
        fpJoin (fpJoin (fpJoin root (gs "objects")) ((Store.hexOfHash h).take 2))
          ((Store.hexOfHash h).drop 2)) := by
  constructor
  · unfold Store.HasObject
    cases hf : fs (Store.objectPath root h) with
    | none => simp
    | some k => simp
  · intro h32
    refine ⟨by rw [hexOfHash_length, h32], rfl⟩

/-- C9 counterexample: a DIRECTORY occupying the sharded object path
makes `HasObject` return true — the code only checks that `os.Stat`
succeeds — contradicting "returns false when something that is not a
regular file (e.g., a directory) occupies that path". -/
theorem c9_directory_counterexample :
    Store.HasObject c9FS (gs "R") Object.ZeroHash = true ∧
    c9FS (Store.objectPath (gs "R") Object.ZeroHash) = some .directory := by
  constructor
  · rfl
  · rfl

/-- C9 witness: the 64-character hex form of a concrete 32-byte hash. -/
theorem c9_witness : (Store.hexOfHash Object.ZeroHash).length = 64 :=
  ((c9_hasobject_amended c9FS (gs "R") Object.ZeroHash).2 (by decide)).1

/-- C4: ignore matching is last-match-wins.  `MatchResult` equals the
result determined by the last matching pattern in source order (the zero
result when no pattern matches), and the `ignored` flag is false when
there is no match, false when the last match is negated, and true when
it is non-negated. -/
theorem c4_last_match_wins (ps : List Ignore.Pattern) (path : GoStr) (isDir : Bool) :
    Ignore.MatchResult ps path isDir =
      Ignore.resultOfLast ((ps.filter (fun p => p.matchFn path isDir)).getLast?) ∧
    Ignore.Match ps path isDir =
      (match (ps.filter (fun p => p.matchFn path isDir)).getLast? with
        | none => false
        | some p => !p.negated) := by
  refine ⟨Ignore.MatchResult_eq_resultOfLast ps path isDir, ?_⟩
  rw [Ignore.Match, Ignore.MatchResult_eq_resultOfLast ps path isDir]
  cases (ps.filter (fun p => p.matchFn path isDir)).getLast? with
  | none => rfl
  | some p =>
    cases hn : p.negated <;> simp [Ignore.resultOfLast, hn]

/-- C3: diffing against the zero hash.  With the zero hash as the old
side, every emitted change is `Added`; with the zero hash as the new
side, every emitted change is `Deleted`; and `loadTree` interprets the
zero hash as an empty tree. -/
theorem c3_zero_hash_diff (s : Diff.TreeStore) (opts : Diff.Options) (fuel : Nat)
    (h : Object.Hash) :
    (∀ cs, Diff.Diff s fuel Object.ZeroHash h opts = .ok cs →
      ∀ c ∈ cs, c.type = .added) ∧
    (∀ cs, Diff.Diff s fuel h Object.ZeroHash opts = .ok cs →
      ∀ c ∈ cs, c.type = .deleted) ∧
    Diff.loadTree s Object.ZeroHash = .ok ⟨[]⟩ := by
  refine ⟨?_, ?_, by unfold Diff.loadTree; rw [if_pos rfl]⟩
  · intro cs hrun
    cases fuel with
    | zero => simp [Diff.Diff, Diff.run] at hrun
    | succ n =>
      rw [Diff.Diff, Diff.run] at hrun
      by_cases hz : Object.ZeroHash = h
      · rw [if_pos hz] at hrun
        simp at hrun
        subst hrun
        simp
      · rw [if_neg hz] at hrun
        rw [show Diff.loadTree s Object.ZeroHash = .ok ⟨[]⟩ from by
          unfold Diff.loadTree; rw [if_pos rfl]] at hrun
        cases hl : Diff.loadTree s h with
        | error e => rw [hl] at hrun; exact absurd hrun (by simp)
        | ok t =>
          rw [hl] at hrun
          exact Diff.run_lists_nil_old s opts n t.Entries [] cs hrun
  · intro cs hrun
    cases fuel with
    | zero => simp [Diff.Diff, Diff.run] at hrun
    | succ n =>
      rw [Diff.Diff, Diff.run] at hrun
      by_cases hz : h = Object.ZeroHash
      · rw [if_pos hz] at hrun
        simp at hrun
        subst hrun
        simp
      · rw [if_neg hz] at hrun
        cases hl : Diff.loadTree s h with
        | error e => rw [hl] at hrun; exact absurd hrun (by simp)
        | ok t =>
          rw [hl] at hrun
          rw [show Diff.loadTree s Object.ZeroHash = .ok ⟨[]⟩ from by
            unfold Diff.loadTree; rw [if_pos rfl]] at hrun
          exact Diff.run_lists_nil_new s opts n t.Entries [] cs hrun

/-- C3 witness: diffing the zero hash against a concrete one-entry tree
emits exactly one change, and the theorem certifies it is `Added`. -/
theorem c3_witness :
    (⟨Diff.ChangeType.added, gs "f", none, some c3Entry⟩ : Diff.Change).type =
      Diff.ChangeType.added :=
  (c3_zero_hash_diff c3Store ⟨true⟩ 3 c3Hash).1
    [⟨Diff.ChangeType.added, gs "f", none, some c3Entry⟩] (by rfl)
    ⟨Diff.ChangeType.added, gs "f", none, some c3Entry⟩ (by simp)

/-- C6: mode-only changes are invisible to the differ.  If the two trees
pair up entries with equal names, equal hashes, and file-like modes on
both sides (in particular a `Regular` ↔ `Executable` flip over identical
blob content, whose hash — `Blob.Hash`, the SHA-256 of the raw content —
does not involve the mode byte), then `Diff` emits no change at all: the
merge compares entry hashes and directory-ness only, never the mode
byte. -/
theorem c6_mode_only_change_undetected (s : Diff.TreeStore) (opts : Diff.Options)
    (fuel : Nat) (h1 h2 : Object.Hash) (told tnew : Object.Tree)
    (hl1 : Diff.loadTree s h1 = .ok told) (hl2 : Diff.loadTree s h2 = .ok tnew)
    (hf : List.Forall₂ (fun a b => a.Name = b.Name ∧ a.Hash = b.Hash ∧
      a.Mode.IsFile = true ∧ b.Mode.IsFile = true) told.Entries tnew.Entries)
    (hfuel : told.Entries.length < fuel) :
    Diff.Diff s (fuel + 1) h1 h2 opts = .ok [] := by
  rw [Diff.Diff, Diff.run]
  by_cases hz : h1 = h2
  · rw [if_pos hz]
  · rw [if_neg hz, hl1, hl2]
    apply Diff.run_lists_sameShape s opts _ fuel [] hfuel
    refine List.Forall₂.imp ?_ hf
    intro a b hab
    obtain ⟨hn, hh, ha, hb⟩ := hab
    refine ⟨hn, hh, ?_⟩
    simp only [Object.Mode.IsFile, Bool.or_eq_true, decide_eq_true_iff] at ha hb
    constructor
    · intro hda
      rcases ha with h0 | h0 <;> rw [h0] at hda <;> exact absurd hda (by decide)
    · intro hdb
      rcases hb with h0 | h0 <;> rw [h0] at hdb <;> exact absurd hdb (by decide)

/-- C6 witness: two trees whose entry `f` flips `Regular` → `Executable`
with the same blob hash diff to the empty change list. -/
theorem c6_witness : Diff.Diff c6Store 3 c6H1 c6H2 ⟨true⟩ = .ok [] :=
  c6_mode_only_change_undetected c6Store ⟨true⟩ 2 c6H1 c6H2
    ⟨[⟨gs "f", Object.ModeRegular, 4, ⟨0, 0⟩, c6Blob⟩]⟩
    ⟨[⟨gs "f", Object.ModeExecutable, 4, ⟨9, 9⟩, c6Blob⟩]⟩
    (by rfl) (by rfl) (by decide) (by decide)

/-- C2 (amended): error policy of the walk.  Per-entry `lstat` failures
are collected and the entry omitted; an error from `store.PutBlob` while
hashing a file is NOT fatal — unless it is a cancellation error it is
wrapped as "put blob", collected against the relative path of the entry, and
the entry is omitted while the walk continues; likewise a failure of the
walk of a SUBDIRECTORY (including its `store.PutTree` failure) is collected
and the directory entry omitted; only the `store.PutTree` call for the
directory currently being assembled — and hence, at top level, for the
root — aborts that `walkDir` with the error. -/
theorem c2_store_errors_amended :
    (∀ (sm : Walker.StoreModel) (ign : Option Walker.Ignorer) (fuel : Nat)
        (relPath name : GoStr) (e : Walker.WErr),
      Walker.processEntry sm ign (fuel + 1) (.statFail e) relPath name =
        .ok (none, [(relPath, e)])) ∧
    (∀ (sm : Walker.StoreModel) (sym exec : Bool) (size : Int) (mt : Timestamp)
        (c relPath name : GoStr) (e : Walker.WErr),
      (if Walker.modeFromFileInfo sym exec = Object.ModeSymlink then none
        else sm.lookupCache relPath size mt) = none →
      sm.putBlob c = .error e → e.isCancel = false →
      Walker.processFileEntry sm sym exec size mt (.ok c) relPath name =
        .ok (none, [(relPath, .wrap "put blob" e)])) ∧
    (∀ (sm : Walker.StoreModel) (ign : Option Walker.Ignorer) (fuel : Nat)
        (mt : Timestamp) (children : List (GoStr × Walker.FSNode))
        (relPath name : GoStr) (e : Walker.WErr),
      Walker.isIgnored ign relPath true = false →
      Walker.walkDir sm ign fuel children relPath = .error e → e.isCancel = false →
      Walker.processEntry sm ign (fuel + 1) (.dir mt children) relPath name =
        .ok (none, [(relPath, e)])) ∧
    (∀ (sm : Walker.StoreModel) (ign : Option Walker.Ignorer) (fuel : Nat)
        (children : List (GoStr × Walker.FSNode)) (relDir : GoStr)
        (entries : List Object.Entry) (errs : List (GoStr × Walker.WErr))
        (e : Walker.WErr),
      Walker.processChildren sm ign fuel children relDir = .ok (entries, errs) →
      sm.putTree ⟨Walker.sortByName entries⟩ = .error e →
      Walker.walkDir sm ign (fuel + 1) children relDir =
        .error (.wrap "put tree" e)) := by
  refine ⟨?_, ?_, ?_, ?_⟩
  · intro sm ign fuel relPath name e
    rw [Walker.processEntry]
  · intro sm sym exec size mt c relPath name e hcache hput hnc
    rw [Walker.processFileEntry, Walker.hashFile]
    simp only [hcache, hput]
    rw [if_neg (by simp [Walker.WErr.isCancel, hnc])]
  · intro sm ign fuel mt children relPath name e hig hwalk hnc
    rw [Walker.processEntry]
    simp only [hig, Bool.false_eq_true, if_false, hwalk]
    rw [if_neg (by simp [hnc])]
  · intro sm ign fuel children relDir entries errs e hpc hput
    rw [Walker.walkDir]
    simp only [hpc, hput]

/-- C2 counterexample: with a store whose `PutBlob` always fails (and
`PutTree` succeeding), the whole walk over a one-file directory
SUCCEEDS — returning a root hash together with the collected
"put blob" error, and a tree omitting the file — contradicting "any
error returned by store.PutBlob is fatal to the whole walk: Walk
aborts and returns that error". -/
theorem c2_putblob_not_fatal_counterexample :
    Walker.Walk c2Store none 3 c2FS =
      .ok (Object.ZeroHash, [(gs "a.txt", .wrap "put blob" (.ioErr "disk full"))]) := by
  rfl

/-- C2 witness: the amended per-file clause at a concrete store and
file. -/
theorem c2_witness :
    Walker.processFileEntry c2Store false false 0 ⟨0, 0⟩ (.ok []) (gs "a.txt") (gs "a.txt") =
      .ok (none, [(gs "a.txt", .wrap "put blob" (.ioErr "disk full"))]) :=
  c2_store_errors_amended.2.1 c2Store false false 0 ⟨0, 0⟩ [] (gs "a.txt") (gs "a.txt")
    (.ioErr "disk full") (by rfl) (by rfl) (by rfl)

